import Mathlib

/-!
# GoldenDict web-site dictionaries (`website.cc`)

A shallow embedding of `website.cc`: the URL templating of
`WebSiteDictionary::getArticle`, the link pass, the tag-balance repair and the
wrapper of `WebSiteArticleRequest::requestFinished`, and the life cycle of a
`WebSiteArticleRequest` (`requestFinished`, `cancel`).

Conventions of the embedding:

* a `QByteArray` or `std::string` is a list of bytes (`Bytes`, numbers below 256);
* a `QString` or `wstring` is a `List Char` (one entry per code point);
* the Qt library functions the file calls (`QByteArray::replace`,
  `QByteArray::toPercentEncoding`, `QString::toUtf8`, the `QRegExp` patterns) are
  written out after their documented behaviour;
* what the Qt installation decides (which text codecs exist, the Unicode tables for
  characters outside ASCII) is a parameter.
-/

namespace WebSite

/-! ## Byte strings -/

/-- A byte string (`QByteArray`, `std::string`, `vector< char >`). -/
abbrev Bytes := List Nat

/-- UTF-8 of one code point (1 to 4 bytes). -/
def utf8Char (c : Char) : Bytes :=
  let n := c.toNat
  if n < 0x80 then [n]
  else if n < 0x800 then [0xC0 + n / 64, 0x80 + n % 64]
  else if n < 0x10000 then [0xE0 + n / 4096, 0x80 + n / 64 % 64, 0x80 + n % 64]
  else [0xF0 + n / 262144, 0x80 + n / 4096 % 64, 0x80 + n / 64 % 64, 0x80 + n % 64]

/-- `QString::toUtf8`. -/
def toUtf8 (s : List Char) : Bytes :=
  s.flatMap utf8Char

/-- Modelled from the spec: `Utf8::encode` of `utf8.hh`, which is not under `src/`;
the spec calls its result the UTF-8 encoding of the wide string. -/
def Utf8.encode (s : List Char) : Bytes :=
  s.flatMap utf8Char

/-- The bytes of a string literal of the source. -/
def lit (s : String) : Bytes :=
  toUtf8 s.toList

/-- `std::string::c_str()` read back as a C string: the bytes before the first NUL
(`urlString = Utf8::encode( context ).c_str()` builds the `QByteArray` from a
`const char *`). -/
def c_str (b : Bytes) : Bytes :=
  b.takeWhile (fun c => c != 0)

/-- `toHexHelper` of `QByteArray::toPercentEncoding`: the digit of "0123456789ABCDEF". -/
def toHexHelper (n : Nat) : Nat :=
  if n < 10 then 48 + n else 55 + n

/-- The bytes `QByteArray::toPercentEncoding` copies unchanged when called without
arguments: ASCII letters, digits, and `-` `.` `_` `~`. -/
def isUnreserved (c : Nat) : Bool :=
  (0x61 ≤ c && c ≤ 0x7A) || (0x41 ≤ c && c ≤ 0x5A) || (0x30 ≤ c && c ≤ 0x39)
    || c == 0x2D || c == 0x2E || c == 0x5F || c == 0x7E

/-- Percent-encoding of one byte. -/
def percentByte (c : Nat) : Bytes :=
  if isUnreserved c then [c] else [0x25, toHexHelper (c / 16 % 16), toHexHelper (c % 16)]

/-- `QByteArray::toPercentEncoding()`. -/
def toPercentEncoding (b : Bytes) : Bytes :=
  b.flatMap percentByte

/-- The scan of `QByteArray::replace( before, after )`: `skip` bytes of a match just
replaced are still to be passed over; otherwise a match of `before` at the head is
replaced by `after` and the scan resumes behind it. -/
def replaceFrom (before after : Bytes) : Nat → Bytes → Bytes
  | _, [] => []
  | skip + 1, _ :: cs => replaceFrom before after skip cs
  | 0, c :: cs =>
    if before.isPrefixOf (c :: cs) then
      after ++ replaceFrom before after (before.length - 1) cs
    else
      c :: replaceFrom before after 0 cs

/-- `QByteArray::replace( before, after )`: every occurrence of `before`, found from
left to right without overlap and without rescanning inserted text, is replaced by
`after`. Every pattern of `website.cc` is a non-empty literal; for an empty pattern
the array is returned as it is. -/
def replace (s before after : Bytes) : Bytes :=
  if before = [] then s else replaceFrom before after 0 s

/-! ## URL templating (`WebSiteDictionary::getArticle`, lines 280-324) -/

/-- The text codecs of the Qt installation: `QTextCodec::codecForName( name )`, with
`none` for the null pointer, and for a codec its `fromUnicode`. -/
structure Codecs where
  codecForName : String → Option (List Char → Bytes)

/-- Whether a codec lookup came back with the null pointer can be decided. -/
instance decidableNoCodec (o : Option (List Char → Bytes)) : Decidable (o = none) :=
  match o with
  | none => isTrue rfl
  | some _ => isFalse (fun h => Option.noConfusion h)

/-- One guarded substitution of `getArticle`:
`codec = QTextCodec::codecForName( name ); if( codec ) urlString.replace( token,
codec->fromUnicode( inputWord ).toPercentEncoding() );`. -/
def substitute (cs : Codecs) (inputWord : List Char) (name : String) (token : Bytes)
    (urlString : Bytes) : Bytes :=
  match cs.codecForName name with
  | some codec => replace urlString token (toPercentEncoding (codec inputWord))
  | none => urlString

/-- `QString( "ISO 8859-%1" ).arg( x ).toLatin1()`. -/
def isoCodecName (x : Nat) : String :=
  "ISO 8859-" ++ toString x

/-- `QString( "%25GDISO%1%25" ).arg( x )`: the lowest place marker, `%1`, is the one
replaced by the number. -/
def isoPlaceholder (x : Nat) : Bytes :=
  lit ("%25GDISO" ++ toString x ++ "%25")

/-- The state of the ISO-8859 loop: the URL built so far and, in order, the numbers
for which the body ran (one codec lookup each). -/
structure IsoState where
  urlString : Bytes
  attempted : List Nat
deriving DecidableEq, Repr

/-- The body of the ISO-8859 loop for the number `x` (lines 317-319). -/
def isoBody (cs : Codecs) (inputWord : List Char) (x : Nat) (st : IsoState) : IsoState :=
  { urlString := substitute cs inputWord (isoCodecName x) (isoPlaceholder x) st.urlString
    attempted := st.attempted ++ [x] }

/-- The loop `for( int x = 1; x <= 16; ++x )` of lines 315-323, entered with the
counter at `x`; after the body for 10 the counter is set to 12, so that `++x` goes on
with 13. -/
def isoLoop (cs : Codecs) (inputWord : List Char) (x : Nat) (st : IsoState) : IsoState :=
  if x ≤ 16 then
    isoLoop cs inputWord ((if x = 10 then 12 else x) + 1) (isoBody cs inputWord x st)
  else
    st
termination_by 17 - x
decreasing_by split <;> omega

/-- The value of `urlString` at line 325 of `getArticle`: the context, when there is
one, and otherwise the template with the placeholders substituted. -/
def WebSiteDictionary.urlString (cs : Codecs) (urlTemplate : Bytes)
    (str context : List Char) : Bytes :=
  if context.length ≠ 0 then
    c_str (Utf8.encode context)
  else
    let inputWord := str
    let u := replace urlTemplate (lit "%25GDWORD%25") (toPercentEncoding (toUtf8 inputWord))
    let u := substitute cs inputWord "Windows-1251" (lit "%25GD1251%25") u
    let u := substitute cs inputWord "Big-5" (lit "%25GDBIG5%25") u
    let u := substitute cs inputWord "Big5-HKSCS" (lit "%25GDBIG5HKSCS%25") u
    let u := substitute cs inputWord "Shift-JIS" (lit "%25GDSHIFTJIS%25") u
    let u := substitute cs inputWord "GB18030" (lit "%25GDGBK%25") u
    (isoLoop cs inputWord 1 { urlString := u, attempted := [] }).urlString

/-- The numbers of the ISO-8859 loop of `getArticle`, in the order of the lookups. -/
def WebSiteDictionary.isoAttempted (cs : Codecs) (urlTemplate : Bytes)
    (str : List Char) : List Nat :=
  (isoLoop cs str 1
    { urlString := replace urlTemplate (lit "%25GDWORD%25") (toPercentEncoding (toUtf8 str))
      attempted := [] }).attempted

/-- The `fromUnicode` of Qt's Latin-1 codec: a code unit above 0xFF becomes `?`. -/
def latin1 (s : List Char) : Bytes :=
  s.map (fun c => if c.toNat ≤ 0xFF then c.toNat else 0x3F)

/-- An installation that has no codec beside ISO 8859-1. -/
def latin1Only : Codecs :=
  { codecForName := fun name => if name = "ISO 8859-1" then some latin1 else none }

/-- The numbers of the ISO-8859 family `getArticle` works through. -/
def isoNumbers : List Nat :=
  [1, 2, 3, 4, 5, 6, 7, 8, 9, 10, 13, 14, 15, 16]

/-- The encoding-specific placeholders of `getArticle` with the codec name each is
looked up under, in the order of the source. -/
def specificPlaceholders : List (String × Bytes) :=
  [("Windows-1251", lit "%25GD1251%25"), ("Big-5", lit "%25GDBIG5%25"),
   ("Big5-HKSCS", lit "%25GDBIG5HKSCS%25"), ("Shift-JIS", lit "%25GDSHIFTJIS%25"),
   ("GB18030", lit "%25GDGBK%25")]
    ++ isoNumbers.map (fun x => (isoCodecName x, isoPlaceholder x))

/-! ## Characters and the patterns of `requestFinished` -/

/-- What Qt's Unicode tables say about the characters outside ASCII: `QChar::isSpace`,
`QChar::isLetterOrNumber() || QChar::isMark()` and `QChar::toLower`. Inside ASCII
these are fixed below. -/
structure QCharTables where
  isSpace : Char → Bool
  isWord : Char → Bool
  toLower : Char → Char

/-- Tables that know no space, letter or case outside ASCII. -/
def asciiTables : QCharTables :=
  { isSpace := fun _ => false, isWord := fun _ => false, toLower := fun c => c }

/-- `QChar::isSpace`, the class `\s` of `QRegExp`: in ASCII the blank and the
characters 9 to 13. -/
def isSpace (T : QCharTables) (c : Char) : Bool :=
  if c.toNat < 128 then c == ' ' || (9 ≤ c.toNat && c.toNat ≤ 13) else T.isSpace c

/-- A word character of `QRegExp` (for `\b`): a letter, a digit, a mark or `_`. -/
def isWord (T : QCharTables) (c : Char) : Bool :=
  if c.toNat < 128 then c.isAlphanum || c == '_' else T.isWord c

/-- `QChar::toLower`. -/
def toLower (T : QCharTables) (c : Char) : Char :=
  if c.toNat < 128 then c.toLower else T.toLower c

/-- Whether there is a word character at a place of the text (`none`: the place is
before the start or behind the end). -/
def isWordAt (T : QCharTables) : Option Char → Bool
  | some c => isWord T c
  | none => false

/-- The anchor `\b` between the characters `prev` and `next`. -/
def wordBoundary (T : QCharTables) (prev next : Option Char) : Bool :=
  isWordAt T prev != isWordAt T next

/-- The pattern `\s*` before a character that is no white space: the text behind the
leading white space. -/
def skipSpace (T : QCharTables) (l : List Char) : List Char :=
  l.dropWhile (isSpace T)

/-- A literal of lower-case letters matched with `Qt::CaseInsensitive` at the head of
a text: the text behind it. -/
def matchLiteral (T : QCharTables) : List Char → List Char → Option (List Char)
  | [], l => some l
  | _ :: _, [] => none
  | x :: xs, c :: cs => if toLower T c == x then matchLiteral T xs cs else none

/-- `s.indexOf( pat ) >= 0` for a `QString`. -/
def contains : List Char → List Char → Bool
  | [], pat => pat.isPrefixOf []
  | c :: cs, pat => pat.isPrefixOf (c :: cs) || contains cs pat

/-- The number of places of a text at which a pattern matches:
`QString::count( QRegExp )`, which counts overlapping matches too. -/
def countMatches (p : List Char → Bool) : List Char → Nat
  | [] => 0
  | c :: cs => (if p (c :: cs) then 1 else 0) + countMatches p cs

/-- The pattern `<\s*name\b` (`name` is `span` or `div`) at the head of a text. -/
def matchesOpen (T : QCharTables) (name : List Char) : List Char → Bool
  | '<' :: l1 =>
    match matchLiteral T name (skipSpace T l1) with
    | some rest =>
      wordBoundary T ((skipSpace T l1).take name.length).getLast? rest.head?
    | none => false
  | _ => false

/-- The pattern `<\s*/name\s*>` at the head of a text. -/
def matchesClose (T : QCharTables) (name : List Char) : List Char → Bool
  | '<' :: l1 =>
    match skipSpace T l1 with
    | '/' :: l2 =>
      match matchLiteral T name l2 with
      | some rest => (skipSpace T rest).head? == some '>'
      | none => false
    | _ => false
  | _ => false

/-! ### The pattern `tags`

`<\s*(a|link|img|script)\s+[^>]*(src|href)\s*=\s*['"][^>]+>`, case-insensitive. Each
function gives the text behind the match of its part of the pattern. No part but the
last character matches `>`, so a match ends at the first `>` behind its `<`. -/

/-- `[^>]*>`. -/
def untilGt : List Char → Option (List Char)
  | [] => none
  | c :: cs => if c == '>' then some cs else untilGt cs

/-- `\s*=\s*['"][^>]+>`. -/
def tagsValue (T : QCharTables) (l : List Char) : Option (List Char) :=
  match skipSpace T l with
  | '=' :: l1 =>
    match skipSpace T l1 with
    | q :: c :: l2 => if (q == '\'' || q == '"') && c != '>' then untilGt l2 else none
    | _ => none
  | _ => none

/-- `(src|href)\s*=\s*['"][^>]+>`. -/
def tagsAttr (T : QCharTables) (l : List Char) : Option (List Char) :=
  match (matchLiteral T "src".toList l).bind (tagsValue T) with
  | some rest => some rest
  | none => (matchLiteral T "href".toList l).bind (tagsValue T)

/-- `[^>]*(src|href)\s*=\s*['"][^>]+>`. -/
def tagsScan (T : QCharTables) : List Char → Option (List Char)
  | [] => none
  | c :: cs =>
    match tagsAttr T (c :: cs) with
    | some rest => some rest
    | none => if c == '>' then none else tagsScan T cs

/-- `name\s+[^>]*(src|href)\s*=\s*['"][^>]+>` for one of the four element names. -/
def tagsName (T : QCharTables) (name : List Char) (l : List Char) : Option (List Char) :=
  match matchLiteral T name l with
  | some (c :: l1) => if isSpace T c then tagsScan T l1 else none
  | _ => none

/-- The pattern `tags` at the head of a text: the text behind the match. -/
def tagsMatch (T : QCharTables) : List Char → Option (List Char)
  | '<' :: l1 =>
    let l2 := skipSpace T l1
    match tagsName T "a".toList l2 with
    | some rest => some rest
    | none =>
      match tagsName T "link".toList l2 with
      | some rest => some rest
      | none =>
        match tagsName T "img".toList l2 with
        | some rest => some rest
        | none => tagsName T "script".toList l2
  | _ => none

/-- The first match of a pattern in a text: how far from the start, and how long. -/
def findMatch (m : List Char → Option (List Char)) : List Char → Option (Nat × Nat)
  | [] => none
  | c :: cs =>
    match m (c :: cs) with
    | some rest => some (0, (c :: cs).length - rest.length)
    | none =>
      match findMatch m cs with
      | some (i, n) => some (i + 1, n)
      | none => none

/-- `articleString.indexOf( tags, pos )`, with `tags.cap().size()` for a match. -/
def indexOfTags (T : QCharTables) (articleString : List Char) (pos : Nat) :
    Option (Nat × Nat) :=
  match findMatch (tagsMatch T) (articleString.drop pos) with
  | some (i, n) => some (pos + i, n)
  | none => none

/-! ### The pattern `links`

`\b(src|href)\s*=\s*(['"])([^'"]+['"])`, case-insensitive. -/

/-- A match of `links` in a tag: `linkPos`, `links.cap( 1 )`, `links.cap( 2 )`,
`links.cap( 3 )` and `links.cap().size()`. -/
structure LinkMatch where
  linkPos : Nat
  cap1 : List Char
  cap2 : List Char
  cap3 : List Char
  size : Nat
deriving DecidableEq, Repr

/-- `[^'"]+['"]`: the text matched and the text behind it. -/
def linksValue (l : List Char) : Option (List Char × List Char) :=
  match l.span (fun c => c != '\'' && c != '"') with
  | (_ :: _, []) => none
  | ([], _) => none
  | (v, q :: rest) => some (v ++ [q], rest)

/-- `name\s*=\s*(['"])([^'"]+['"])` at the head of a text, for `name` one of `src` and
`href`; the match is reported at place 0. -/
def linksName (T : QCharTables) (name : List Char) (l : List Char) : Option LinkMatch :=
  match matchLiteral T name l with
  | some r1 =>
    match skipSpace T r1 with
    | '=' :: r2 =>
      match skipSpace T r2 with
      | q :: r3 =>
        if q == '\'' || q == '"' then
          match linksValue r3 with
          | some (v, rest) =>
            some { linkPos := 0, cap1 := l.take name.length, cap2 := [q], cap3 := v,
                   size := l.length - rest.length }
          | none => none
        else none
      | [] => none
    | _ => none
  | none => none

/-- The pattern `links` at the head of a text that follows the character `prev`. -/
def linksAt (T : QCharTables) (prev : Option Char) (l : List Char) : Option LinkMatch :=
  if wordBoundary T prev l.head? then
    match linksName T "src".toList l with
    | some m => some m
    | none => linksName T "href".toList l
  else none

/-- The first match of `links` in the text `l` that starts at place `i` of the tag
and follows the character `prev`. -/
def linksFind (T : QCharTables) : Option Char → List Char → Nat → Option LinkMatch
  | _, [], _ => none
  | prev, c :: cs, i =>
    match linksAt T prev (c :: cs) with
    | some m => some { m with linkPos := i }
    | none => linksFind T (some c) cs (i + 1)

/-- `tag.indexOf( links )` with the captures of the match. -/
def indexOfLinks (T : QCharTables) (tag : List Char) : Option LinkMatch :=
  linksFind T none tag 0

/-! ### The link pass (lines 166-217) -/

/-- The parts of `netReply->url()` the link pass reads. -/
structure QUrl where
  scheme : List Char
  host : List Char
  path : List Char
deriving DecidableEq, Repr

/-- `root` of line 168. -/
def root (url : QUrl) : List Char :=
  url.scheme ++ "://".toList ++ url.host

/-- `base` after lines 169-171: `root + path`, chopped until it is empty or ends
with `/`. -/
def base (url : QUrl) : List Char :=
  (root url ++ url.path).rdropWhile (fun c => c != '/')

/-- `QString::replace( position, n, after )`. -/
def replaceAt (s : List Char) (position n : Nat) (after : List Char) : List Char :=
  s.take position ++ after ++ s.drop (position + n)

/-- Lines 186-213 for one tag: `none` when the tag is passed over (`links` does not
match, or the value is taken for an external link, an anchor or inline data), and
otherwise the tag with the link made absolute. -/
def rewriteTag (T : QCharTables) (replyUrl : QUrl) (tag : List Char) : Option (List Char) :=
  match indexOfLinks T tag with
  | none => none
  | some m =>
    let url := m.cap3
    if contains url ":/".toList || contains url "data:".toList
        || contains url "mailto:".toList || "#".toList.isPrefixOf url then
      none
    else
      let newUrl := m.cap1 ++ "=".toList ++ m.cap2
      let newUrl :=
        if "//".toList.isPrefixOf url then newUrl ++ (replyUrl.scheme ++ ":".toList)
        else if "/".toList.isPrefixOf url then newUrl ++ root replyUrl
        else newUrl ++ base replyUrl
      let newUrl := newUrl ++ m.cap3
      some (replaceAt tag m.linkPos m.size newUrl)

/-! A match of `tags` is not empty and lies inside the text, so that the scan of the
link pass moves on. -/

theorem untilGt_length (l r : List Char) (h : untilGt l = some r) : r.length < l.length := by
  induction l with
  | nil => simp [untilGt] at h
  | cons c cs ih =>
    unfold untilGt at h
    split at h
    · cases h
      simp
    · have := ih h
      simp
      omega

theorem skipSpace_length (T : QCharTables) (l : List Char) :
    (skipSpace T l).length ≤ l.length :=
  (List.dropWhile_suffix _).length_le

theorem matchLiteral_length (T : QCharTables) (name l r : List Char)
    (h : matchLiteral T name l = some r) : r.length + name.length = l.length := by
  induction name generalizing l with
  | nil =>
    simp only [matchLiteral, Option.some.injEq] at h
    simp [h]
  | cons x xs ih =>
    cases l with
    | nil => simp [matchLiteral] at h
    | cons c cs =>
      unfold matchLiteral at h
      split at h
      · have := ih cs h
        simp
        omega
      · cases h

theorem tagsValue_length (T : QCharTables) (l r : List Char)
    (h : tagsValue T l = some r) : r.length < l.length := by
  unfold tagsValue at h
  have h0 := skipSpace_length T l
  split at h
  · rename_i l1 e1
    have h1 := skipSpace_length T l1
    rw [e1] at h0
    split at h
    · rename_i q c l2 e2
      rw [e2] at h1
      split at h
      · have := untilGt_length l2 r h
        simp at h0 h1
        omega
      · cases h
    · cases h
  · cases h

theorem tagsAttr_length (T : QCharTables) (l r : List Char)
    (h : tagsAttr T l = some r) : r.length < l.length := by
  have key : ∀ name : List Char, (matchLiteral T name l).bind (tagsValue T) = some r →
      r.length < l.length := by
    intro name hn
    rw [Option.bind_eq_some] at hn
    obtain ⟨r1, h1, h2⟩ := hn
    have := matchLiteral_length T name l r1 h1
    have := tagsValue_length T r1 r h2
    omega
  unfold tagsAttr at h
  split at h
  · rename_i rest e
    cases h
    exact key _ e
  · exact key _ h

theorem tagsScan_length (T : QCharTables) (l r : List Char)
    (h : tagsScan T l = some r) : r.length < l.length := by
  induction l with
  | nil => simp [tagsScan] at h
  | cons c cs ih =>
    unfold tagsScan at h
    split at h
    · rename_i rest e
      cases h
      exact tagsAttr_length T _ _ e
    · split at h
      · cases h
      · have := ih h
        simp
        omega

theorem tagsName_length (T : QCharTables) (name l r : List Char)
    (h : tagsName T name l = some r) : r.length < l.length := by
  unfold tagsName at h
  split at h
  · rename_i c l1 e
    have h1 := matchLiteral_length T name l _ e
    split at h
    · have := tagsScan_length T l1 r h
      simp at h1
      omega
    · cases h
  · cases h

theorem tagsMatch_length (T : QCharTables) (l r : List Char)
    (h : tagsMatch T l = some r) : r.length < l.length := by
  unfold tagsMatch at h
  split at h
  · rename_i l1
    have h0 := skipSpace_length T l1
    have key : ∀ name : List Char, tagsName T name (skipSpace T l1) = some r →
        r.length < ('<' :: l1).length := by
      intro name hn
      have := tagsName_length T name _ r hn
      simp
      omega
    simp only at h
    split at h
    · rename_i rest e
      cases h
      exact key _ e
    · split at h
      · rename_i rest e
        cases h
        exact key _ e
      · split at h
        · rename_i rest e
          cases h
          exact key _ e
        · exact key _ h
  · cases h

theorem findMatch_bounds (m : List Char → Option (List Char))
    (hm : ∀ l r, m l = some r → r.length < l.length) (l : List Char) (i n : Nat)
    (h : findMatch m l = some (i, n)) : 0 < n ∧ i + n ≤ l.length := by
  induction l generalizing i with
  | nil => simp [findMatch] at h
  | cons c cs ih =>
    unfold findMatch at h
    split at h
    · rename_i rest e
      have := hm _ _ e
      simp only [Option.some.injEq, Prod.mk.injEq] at h
      obtain ⟨rfl, rfl⟩ := h
      simp at this ⊢
      omega
    · split at h
      · rename_i i' n' e
        simp only [Option.some.injEq, Prod.mk.injEq] at h
        obtain ⟨rfl, rfl⟩ := h
        have := ih i' e
        simp
        omega
      · cases h

theorem indexOfTags_bounds (T : QCharTables) (s : List Char) (pos p n : Nat)
    (h : indexOfTags T s pos = some (p, n)) : pos ≤ p ∧ 0 < n ∧ p + n ≤ s.length := by
  unfold indexOfTags at h
  split at h
  · rename_i i n' e
    simp only [Option.some.injEq, Prod.mk.injEq] at h
    obtain ⟨rfl, rfl⟩ := h
    have := findMatch_bounds _ (tagsMatch_length T) _ _ _ e
    simp at this
    omega
  · cases h

set_option linter.unusedVariables false in
/-- The loop of lines 177-217, entered with the scan at `pos`: the next match of
`tags` is looked up from `pos` on; a tag that is passed over leaves the text as it
is, another one is replaced by its rewritten form, and the scan goes on behind the
tag. The text is returned when there is no further match. -/
def linkLoop (T : QCharTables) (replyUrl : QUrl) (articleString : List Char) (pos : Nat) :
    List Char :=
  match h : indexOfTags T articleString pos with
  | none => articleString
  | some (p, n) =>
    match rewriteTag T replyUrl ((articleString.drop p).take n) with
    | none => linkLoop T replyUrl articleString (p + ((articleString.drop p).take n).length)
    | some tag =>
      linkLoop T replyUrl (replaceAt articleString p n tag) (p + tag.length)
termination_by articleString.length - pos
decreasing_by
  · have := indexOfTags_bounds T articleString pos p n h
    simp only [List.length_take, List.length_drop]
    omega
  · have := indexOfTags_bounds T articleString pos p n h
    simp only [replaceAt, List.length_append, List.length_take, List.length_drop]
    omega

/-! ### Unclosed tags, padding and wrapper (lines 219-252) -/

/-- The loop `while( openTags > closedTags ) { articleString += closer;
closedTags += 1; }` of lines 223-227 and 231-235. -/
def closeLoop (closer : List Char) (openTags closedTags : Nat) (articleString : List Char) :
    List Char :=
  if openTags > closedTags then
    closeLoop closer openTags (closedTags + 1) (articleString ++ closer)
  else
    articleString
termination_by openTags - closedTags

/-- Lines 221-227: the `<span` openings and `</span>` closings are counted and the
missing closings appended. -/
def closeSpans (T : QCharTables) (articleString : List Char) : List Char :=
  closeLoop "</span>".toList
    (countMatches (matchesOpen T "span".toList) articleString)
    (countMatches (matchesClose T "span".toList) articleString) articleString

/-- Lines 229-235: the same for `<div` and `</div>`. -/
def closeDivs (T : QCharTables) (articleString : List Char) : List Char :=
  closeLoop "</div>".toList
    (countMatches (matchesOpen T "div".toList) articleString)
    (countMatches (matchesClose T "div".toList) articleString) articleString

/-- The closing tags of lines 238-242. -/
def closerPadding : List Char :=
  ("</font></font></font></font></font></font>"
    ++ "</font></font></font></font></font></font>"
    ++ "</b></b></b></b></b></b></b></b>"
    ++ "</i></i></i></i></i></i></i></i>"
    ++ "</a></a></a></a></a></a></a></a>").toList

/-- `QString::fromAscii` of a C string (`QString + const char *`): the bytes before
the first NUL, one character each. -/
def fromAscii (b : Bytes) : List Char :=
  (c_str b).map Char.ofNat

/-- Modelled from the spec: what `requestFinished` reads from the dictionary behind
`dictPtr`, whose class `Dictionary::Class` is not under `src/`: `getId()`, the
source's stable id, and `isToLanguageRTL()`, its directionality flag. -/
structure Class where
  id : Bytes
  toLanguageRTL : Bool
deriving DecidableEq, Repr

/-- The text of the article after the link pass, the tag repair and the padding
(lines 166-242). -/
def processedBody (T : QCharTables) (replyUrl : QUrl) (articleString : List Char) :
    List Char :=
  let articleString := linkLoop T replyUrl articleString 0
  let articleString := closeSpans T articleString
  let articleString := closeDivs T articleString
  articleString ++ closerPadding

/-- `articleBody` at line 253: the padding div, the wrapper div with the class of the
dictionary and its direction, the processed body and the closing tag of the wrapper,
all in UTF-8. -/
def articleBody (T : QCharTables) (dict : Class) (replyUrl : QUrl)
    (articleString : List Char) : Bytes :=
  let divName := "website_".toList ++ fromAscii dict.id
  let articleBody := toUtf8 (processedBody T replyUrl articleString)
  let divStr := "<div class=\"".toList ++ divName ++ "\"".toList
  let divStr := divStr ++ (if dict.toLanguageRTL then " dir=\"rtl\">".toList else ">".toList)
  let articleBody := toUtf8 divStr ++ articleBody
  let articleBody := articleBody ++ lit "</div>"
  lit "<div class=\"website_padding\"></div>" ++ articleBody

/-! ## The request (`WebSiteArticleRequest`) -/

/-- What `requestFinished` reads from a reply of the transport: which reply object it
is, whether `error()` is `NoError`, `errorString()`, the `RedirectionTargetAttribute`
as a URL (empty when there is none), `url()`, and the text `readAll()` decodes to
(`QTextCodec::codecForHtml`, or UTF-8 without one). -/
structure QNetworkReply where
  handle : Nat
  noError : Bool
  errorString : List Char
  redirectUrl : List Char
  url : QUrl
  articleString : List Char
deriving DecidableEq, Repr

/-- The transport as the request sees it: the URLs of the GET requests issued so
far. -/
structure QNetworkAccessManager where
  requested : List (List Char)
deriving DecidableEq, Repr

/-- `mgr.get( QNetworkRequest( url ) )`: the request is issued and a new reply object
is handed out. -/
def QNetworkAccessManager.get (mgr : QNetworkAccessManager) (url : List Char) :
    Nat × QNetworkAccessManager :=
  (mgr.requested.length, { requested := mgr.requested ++ [url] })

/-- A `WebSiteArticleRequest`: its own members and, modelled from the spec, those of
its base class `Dictionary::DataRequest`, which is not under `src/` (the finished
flag behind `isFinished()` and `finish()`, the buffer `data`, `hasAnyData` and the
error string). -/
structure WebSiteArticleRequest where
  netReply : Nat
  url : List Char
  dictPtr : Class
  mgr : QNetworkAccessManager
  isFinishedFlag : Bool
  data : Bytes
  hasAnyData : Bool
  errorString : List Char
deriving DecidableEq, Repr

/-- Modelled from the spec: `Dictionary::Request::isFinished` (not under `src/`),
whether the request has reached a terminal state. -/
def WebSiteArticleRequest.isFinished (req : WebSiteArticleRequest) : Bool :=
  req.isFinishedFlag

/-- Modelled from the spec: `Dictionary::Request::finish` (not under `src/`), which
marks the request terminal and touches nothing else. -/
def WebSiteArticleRequest.finish (req : WebSiteArticleRequest) : WebSiteArticleRequest :=
  { req with isFinishedFlag := true }

/-- Modelled from the spec: `Dictionary::Request::setErrorString` (not under
`src/`), which records the error description. -/
def WebSiteArticleRequest.setErrorString (req : WebSiteArticleRequest) (s : List Char) :
    WebSiteArticleRequest :=
  { req with errorString := s }

/-- The constructor (lines 106-123): the GET for the URL is issued and its reply
tracked; the base class starts unfinished, with an empty buffer and no error. -/
def WebSiteArticleRequest.new (url : List Char) (mgr : QNetworkAccessManager)
    (dictPtr : Class) : WebSiteArticleRequest :=
  { netReply := (mgr.get url).1
    url := url
    dictPtr := dictPtr
    mgr := (mgr.get url).2
    isFinishedFlag := false
    data := []
    hasAnyData := false
    errorString := [] }

/-- `WebSiteArticleRequest::cancel` (lines 101-104). -/
def WebSiteArticleRequest.cancel (req : WebSiteArticleRequest) : WebSiteArticleRequest :=
  req.finish

/-- `WebSiteArticleRequest::requestFinished` (lines 125-271) for the notification
that the reply `r` has finished. -/
def WebSiteArticleRequest.requestFinished (T : QCharTables) (req : WebSiteArticleRequest)
    (r : QNetworkReply) : WebSiteArticleRequest :=
  if req.isFinished then
    req
  else if r.handle ≠ req.netReply then
    req
  else if r.noError then
    if r.redirectUrl ≠ [] then
      { req with netReply := (req.mgr.get r.redirectUrl).1
                 mgr := (req.mgr.get r.redirectUrl).2 }
    else
      WebSiteArticleRequest.finish
        { req with data := req.data ++ articleBody T req.dictPtr r.url r.articleString
                   hasAnyData := true }
  else
    (req.setErrorString r.errorString).finish

/-! ## The link pass as one scan of the text

`linkLoop` is shown below to compute what a single scan from left to right computes;
the scan is what concrete bodies are evaluated with. -/

/-- The link pass as a scan: `skip` characters of the tag just handled are still to
be passed over; otherwise a match of `tags` at the head is handled (kept, or
replaced by its rewritten form) and the scan goes on behind it. -/
def linkScan (T : QCharTables) (replyUrl : QUrl) : Nat → List Char → List Char
  | _, [] => []
  | skip + 1, _ :: cs => linkScan T replyUrl skip cs
  | 0, c :: cs =>
    match tagsMatch T (c :: cs) with
    | some rest =>
      let n := (c :: cs).length - rest.length
      ((rewriteTag T replyUrl ((c :: cs).take n)).getD ((c :: cs).take n))
        ++ linkScan T replyUrl (n - 1) cs
    | none => c :: linkScan T replyUrl 0 cs

/-- The tags the link pass matches in a text that it leaves as it is, from left to
right (`skip` as in `linkScan`). -/
def matchedTagsFrom (T : QCharTables) : Nat → List Char → List (List Char)
  | _, [] => []
  | skip + 1, _ :: cs => matchedTagsFrom T skip cs
  | 0, c :: cs =>
    match tagsMatch T (c :: cs) with
    | some rest =>
      (c :: cs).take ((c :: cs).length - rest.length)
        :: matchedTagsFrom T ((c :: cs).length - rest.length - 1) cs
    | none => matchedTagsFrom T 0 cs

/-- The tags the link pass matches in a text that it leaves as it is. -/
def matchedTags (T : QCharTables) (articleString : List Char) : List (List Char) :=
  matchedTagsFrom T 0 articleString

/-- The closing tags the repair appends: `k` copies of `closer`. -/
def closers (k : Nat) (closer : List Char) : List Char :=
  (List.replicate k closer).flatten

/-- The fetched URL of the examples, `https://h/a/b`. -/
def exampleUrl : QUrl :=
  { scheme := "https".toList, host := "h".toList, path := "/a/b".toList }

/-- The notification for a reply on the exchange the request tracks: the reply object
is the one `netReply` points to. -/
def onTracked (req : WebSiteArticleRequest) (r : QNetworkReply) : QNetworkReply :=
  { r with handle := req.netReply }

/-- `requestFinished` for a reply on the tracked exchange. -/
def deliver (T : QCharTables) (req : WebSiteArticleRequest) (r : QNetworkReply) :
    WebSiteArticleRequest :=
  req.requestFinished T (onTracked req r)

/-- A redirect response to `https://h/next`. -/
def exampleRedirect : QNetworkReply :=
  { handle := 0, noError := true, errorString := [], redirectUrl := "https://h/next".toList,
    url := exampleUrl, articleString := "<p>moved</p>".toList }

/-- A successful terminal response with the body `<b>x</b>`. -/
def exampleSuccess : QNetworkReply :=
  { handle := 0, noError := true, errorString := [], redirectUrl := [],
    url := exampleUrl, articleString := "<b>x</b>".toList }

/-- A dictionary with the id `ab`, written left to right. -/
def exampleDict : Class :=
  { id := lit "ab", toLanguageRTL := false }

/-! ## Notions the statements below use -/

/-- A text that is empty or starts with `<`. -/
def StartsTag (t : List Char) : Prop :=
  t = [] ∨ ∃ t', t = '<' :: t'

/-- What a match of `links` looks like in the text it is found in. -/
def LinkShape (T : QCharTables) (l : List Char) (m : LinkMatch)
    (pre ws1 ws2 : List Char) (q : Char) (v : List Char) (q' : Char) (post : List Char) :
    Prop :=
  l = pre ++ (m.cap1 ++ ws1 ++ ['='] ++ ws2 ++ [q] ++ (v ++ [q'])) ++ post
    ∧ m.size = (m.cap1 ++ ws1 ++ ['='] ++ ws2 ++ [q] ++ (v ++ [q'])).length
    ∧ m.cap2 = [q] ∧ m.cap3 = v ++ [q']
    ∧ (∀ c ∈ ws1 ++ ws2, isSpace T c = true)
    ∧ (q = '\'' ∨ q = '"') ∧ (q' = '\'' ∨ q' = '"')
    ∧ v ≠ [] ∧ (∀ c ∈ v, c ≠ '\'' ∧ c ≠ '"')
    ∧ (matchLiteral T "src".toList m.cap1 = some []
        ∨ matchLiteral T "href".toList m.cap1 = some [])

/-! ## One iteration of the link pass -/

/-- One iteration of the loop of lines 177-217 on the text and the scan position:
`none` when the loop is left (no further match of `tags`), and otherwise the text
and the position the next iteration starts with. -/
def linkStep (T : QCharTables) (replyUrl : QUrl) (st : List Char × Nat) :
    Option (List Char × Nat) :=
  match indexOfTags T st.1 st.2 with
  | none => none
  | some (p, n) =>
    match rewriteTag T replyUrl ((st.1.drop p).take n) with
    | none => some (st.1, p + ((st.1.drop p).take n).length)
    | some tag => some (replaceAt st.1 p n tag, p + tag.length)

/-- At most `fuel` iterations of the loop: the text when the loop is left within
them, `none` when it is not. -/
def linkIter (T : QCharTables) (replyUrl : QUrl) : Nat → List Char × Nat → Option (List Char)
  | 0, _ => none
  | fuel + 1, st =>
    match linkStep T replyUrl st with
    | none => some st.1
    | some st' => linkIter T replyUrl fuel st'

/-- The path of a URL truncated after its last `/`. -/
def directoryOf (path : List Char) : List Char :=
  path.rdropWhile (fun c => c != '/')

/-! ## `WebSiteDictionary::getArticle` and `makeDictionaries` -/

/-- The members of a `WebSiteDictionary` (lines 19-42), with the id its base class
`Dictionary::Class` keeps. -/
structure WebSiteDictionary where
  id : Bytes
  name : Bytes
  urlTemplate : Bytes
  iconFilename : List Char
  inside_iframe : Bool
  dictionaryDescription : List Char
deriving DecidableEq, Repr

/-- Modelled from the spec: `Dictionary::DataRequestInstant`, which is not under
`src/`: a request that is finished from the start, `DataRequestInstant( true )` with
`hasAnyData` set, and whose buffer `getArticle` fills. -/
structure DataRequestInstant where
  isFinishedFlag : Bool
  hasAnyData : Bool
  data : Bytes
deriving DecidableEq, Repr

/-- What `getArticle` returns: the instant request of the iframe mode, or a new
`WebSiteArticleRequest`. -/
inductive DataRequest where
  | instant (dr : DataRequestInstant)
  | webSite (req : WebSiteArticleRequest)
deriving DecidableEq, Repr

/-- The string `result` of lines 330-339 for the dictionary id `id` and the URL
`urlString`; `urlString.data()` is appended as a C string. -/
def iframeResult (id : Bytes) (urlString : Bytes) : Bytes :=
  lit "<div class=\"website_padding\"></div>"
    ++ (lit "<iframe id=\"gdexpandframe-" ++ id
      ++ lit "\" src=\"" ++ c_str urlString
      ++ lit "\" onmouseover=\"processIframeMouseOver('gdexpandframe-" ++ id ++ lit "');\" "
      ++ lit "onmouseout=\"processIframeMouseOut();\" "
      ++ lit "scrolling=\"no\" marginwidth=\"0\" marginheight=\"0\" "
      ++ lit "frameborder=\"0\" vspace=\"0\" hspace=\"0\" "
      ++ lit "style=\"overflow:visible; width:100%; display:none;\">"
      ++ lit "</iframe>")

/-- `WebSiteDictionary::getArticle` (lines 273-351). `toLanguageRTL` is what the base
class answers for `isToLanguageRTL()`; the `QByteArray` of the URL becomes the
`QString` of the request as a C string. -/
def WebSiteDictionary.getArticle (cs : Codecs) (dict : WebSiteDictionary)
    (toLanguageRTL : Bool) (netMgr : QNetworkAccessManager) (str context : List Char) :
    DataRequest :=
  let urlString := WebSiteDictionary.urlString cs dict.urlTemplate str context
  if dict.inside_iframe then
    DataRequest.instant
      { isFinishedFlag := true, hasAnyData := true, data := iframeResult dict.id urlString }
  else
    DataRequest.webSite
      (WebSiteArticleRequest.new (fromAscii urlString) netMgr
        { id := dict.id, toLanguageRTL := toLanguageRTL })

/-- The GET requests a result of `getArticle` has added to those of `netMgr`. -/
def DataRequest.requested (netMgr : QNetworkAccessManager) : DataRequest → List (List Char)
  | DataRequest.instant _ => netMgr.requested
  | DataRequest.webSite req => req.mgr.requested

/-- Modelled from the spec: an entry of `Config::WebSites` (`config.hh` is not under
`src/`): the fields `makeDictionaries` reads. -/
structure Config.WebSite where
  id : List Char
  name : List Char
  url : List Char
  enabled : Bool
  iconFilename : List Char
  inside_iframe : Bool
deriving DecidableEq, Repr

/-- The constructor of `WebSiteDictionary` as `makeDictionaries` calls it (lines
29-42 and 380-385): id and name arrive as C strings of their UTF-8, the template is
kept in the encoded form `QUrl( url ).toEncoded()` (`toEncoded`, a function of Qt),
the description is the URL as configured. -/
def WebSiteDictionary.new (toEncoded : List Char → Bytes) (w : Config.WebSite) :
    WebSiteDictionary :=
  { id := c_str (toUtf8 w.id)
    name := c_str (toUtf8 w.name)
    urlTemplate := toEncoded w.url
    iconFilename := w.iconFilename
    inside_iframe := w.inside_iframe
    dictionaryDescription := w.url }

/-- The loop of `makeDictionaries` (lines 377-387), entered with the index at `x`. -/
def makeDictionariesLoop (toEncoded : List Char → Bytes) (ws : List Config.WebSite)
    (x : Nat) (result : List WebSiteDictionary) : List WebSiteDictionary :=
  if h : x < ws.length then
    if ws[x].enabled then
      makeDictionariesLoop toEncoded ws (x + 1) (result ++ [WebSiteDictionary.new toEncoded ws[x]])
    else
      makeDictionariesLoop toEncoded ws (x + 1) result
  else
    result
termination_by ws.length - x

/-- `makeDictionaries` (lines 371-390). -/
def makeDictionaries (toEncoded : List Char → Bytes) (ws : List Config.WebSite) :
    List WebSiteDictionary :=
  makeDictionariesLoop toEncoded ws 0 []

/-- A stand-in for `QUrl( url ).toEncoded()` that is right for a URL of plain ASCII
in which the only characters to encode are `%` signs that start no escape. -/
def exampleToEncoded (url : List Char) : Bytes :=
  replace (toUtf8 url) (lit "%") (lit "%25")

/-- A failed reply with a redirect target, on the reply object 0. -/
def exampleError : QNetworkReply :=
  { handle := 0, noError := false, errorString := "Host h not found".toList,
    redirectUrl := "https://h/next".toList, url := exampleUrl, articleString := [] }

/-- A dictionary shown in an iframe, with the id `ab` and the template
`http://h/?q=%25GDWORD%25`. -/
def exampleIframeDictionary : WebSiteDictionary :=
  { id := lit "ab", name := lit "Example", urlTemplate := lit "http://h/?q=%25GDWORD%25",
    iconFilename := [], inside_iframe := true,
    dictionaryDescription := "http://h/?q=%GDWORD%".toList }

/-- A fetched URL with an empty path, `https://h`. -/
def exampleUrlNoPath : QUrl :=
  { scheme := "https".toList, host := "h".toList, path := [] }

/-- The prefix line 204-210 put before the value `url`. -/
def linkPrefix (replyUrl : QUrl) (url : List Char) : List Char :=
  if "//".toList.isPrefixOf url then replyUrl.scheme ++ ":".toList
  else if "/".toList.isPrefixOf url then root replyUrl
  else base replyUrl

set_option maxRecDepth 100000

/-! ## Facts about `replace` -/

theorem replaceFrom_of_not_infix (before after : Bytes) (s : Bytes)
    (h : ¬ before <:+: s) : replaceFrom before after 0 s = s := by
  induction s with
  | nil => simp [replaceFrom]
  | cons c cs ih =>
    have h1 : before.isPrefixOf (c :: cs) = false := by
      cases hp : before.isPrefixOf (c :: cs) with
      | false => rfl
      | true => exact absurd (List.isPrefixOf_iff_prefix.mp hp).isInfix h
    have h2 : ¬ before <:+: cs := fun hi => h (List.infix_cons hi)
    simp [replaceFrom, h1, ih h2]

theorem replace_of_not_infix (s before after : Bytes) (h : ¬ before <:+: s) :
    replace s before after = s := by
  unfold replace
  split
  · rfl
  · exact replaceFrom_of_not_infix before after s h

theorem isoLoop_eq_foldl (cs : Codecs) (w : List Char) (st : IsoState) :
    isoLoop cs w 1 st = isoNumbers.foldl (fun s x => isoBody cs w x s) st := by
  simp [isoLoop, isoNumbers]

theorem isoBody_foldl_urlString (cs : Codecs) (w : List Char) (xs : List Nat)
    (st : IsoState) :
    (xs.foldl (fun s x => isoBody cs w x s) st).urlString
      = (xs.map (fun x => (isoCodecName x, isoPlaceholder x))).foldl
          (fun u p => substitute cs w p.1 p.2 u) st.urlString := by
  induction xs generalizing st with
  | nil => rfl
  | cons x xs ih =>
    rw [List.foldl_cons, ih, List.map_cons, List.foldl_cons]
    rfl

theorem isoBody_foldl_attempted (cs : Codecs) (w : List Char) (xs : List Nat)
    (st : IsoState) :
    (xs.foldl (fun s x => isoBody cs w x s) st).attempted = st.attempted ++ xs := by
  induction xs generalizing st with
  | nil => simp
  | cons x xs ih =>
    rw [List.foldl_cons, ih]
    simp [isoBody]

theorem urlString_eq_foldl (cs : Codecs) (urlTemplate : Bytes) (str : List Char) :
    WebSiteDictionary.urlString cs urlTemplate str []
      = specificPlaceholders.foldl (fun u p => substitute cs str p.1 p.2 u)
          (replace urlTemplate (lit "%25GDWORD%25") (toPercentEncoding (toUtf8 str))) := by
  simp only [WebSiteDictionary.urlString, List.length_nil, ne_eq, not_true_eq_false,
    if_false, isoLoop_eq_foldl, isoBody_foldl_urlString, specificPlaceholders,
    List.foldl_append, List.foldl_cons, List.foldl_nil]

theorem substitute_foldl_id (cs : Codecs) (w : List Char) (ps : List (String × Bytes))
    (u : Bytes)
    (h : ∀ p ∈ ps, cs.codecForName p.1 = none ∨ ¬ p.2 <:+: u) :
    ps.foldl (fun u p => substitute cs w p.1 p.2 u) u = u := by
  induction ps with
  | nil => rfl
  | cons p ps ih =>
    have hp : substitute cs w p.1 p.2 u = u := by
      unfold substitute
      rcases h p (by simp) with h1 | h1
      · rw [h1]
      · split
        · exact replace_of_not_infix _ _ _ h1
        · rfl
    rw [List.foldl_cons, hp]
    exact ih (fun q hq => h q (by simp [hq]))

theorem char_toNat_lt (c : Char) : c.toNat < 0x110000 := by
  have h := c.valid
  simp only [Char.toNat]
  rcases h with h | h
  · have : c.val.toNat < 0xd800 := h
    omega
  · exact h.2

theorem utf8Char_bytes (c : Char) :
    ∀ b ∈ utf8Char c, b < 256 ∧ (b < 128 → b = c.toNat) := by
  have hc := char_toNat_lt c
  intro b hb
  unfold utf8Char at hb
  simp only at hb
  split at hb
  · simp only [List.mem_singleton] at hb
    omega
  · split at hb
    · simp only [List.mem_cons, List.mem_singleton, List.not_mem_nil, or_false] at hb
      omega
    · split at hb
      · simp only [List.mem_cons, List.mem_singleton, List.not_mem_nil, or_false] at hb
        omega
      · simp only [List.mem_cons, List.mem_singleton, List.not_mem_nil, or_false] at hb
        omega

/-- C4. The ISO-8859 loop of `getArticle` ends, and its body (one codec lookup and the
guarded substitution) runs for exactly 1, ..., 10, 13, ..., 16, once each and in
increasing order, never for 11 or 12; the URL it leaves is the one these
substitutions give. Neither `%25GDISO11%25` nor `%25GDISO12%25` is one of the
placeholders `getArticle` substitutes, and whatever codecs are available, a template
holding one of these two tokens resolves to itself. -/
theorem getArticle_iso_loop (cs : Codecs) (str : List Char) (st : IsoState) :
    (isoLoop cs str 1 st).attempted
        = st.attempted ++ [1, 2, 3, 4, 5, 6, 7, 8, 9, 10, 13, 14, 15, 16]
      ∧ (isoLoop cs str 1 st).urlString
        = [1, 2, 3, 4, 5, 6, 7, 8, 9, 10, 13, 14, 15, 16].foldl
            (fun u x => substitute cs str (isoCodecName x) (isoPlaceholder x) u)
            st.urlString
      ∧ (∀ urlTemplate : Bytes, 11 ∉ WebSiteDictionary.isoAttempted cs urlTemplate str
          ∧ 12 ∉ WebSiteDictionary.isoAttempted cs urlTemplate str)
      ∧ (∀ p ∈ specificPlaceholders,
          p.2 ≠ lit "%25GDISO11%25" ∧ p.2 ≠ lit "%25GDISO12%25")
      ∧ WebSiteDictionary.urlString cs (lit "http://h/?q=%25GDISO11%25") str []
          = lit "http://h/?q=%25GDISO11%25"
      ∧ WebSiteDictionary.urlString cs (lit "http://h/?q=%25GDISO12%25") str []
          = lit "http://h/?q=%25GDISO12%25" := by
  have key : ∀ t : Bytes, ¬ lit "%25GDWORD%25" <:+: t →
      (∀ q ∈ specificPlaceholders, ¬ q.2 <:+: t) →
      WebSiteDictionary.urlString cs t str [] = t := by
    intro t h1 h2
    rw [urlString_eq_foldl, replace_of_not_infix _ _ _ h1]
    exact substitute_foldl_id cs str _ _ (fun q hq => Or.inr (h2 q hq))
  refine ⟨?_, ?_, ?_, by decide, key _ (by decide) (by decide),
    key _ (by decide) (by decide)⟩
  · rw [isoLoop_eq_foldl, isoBody_foldl_attempted]
    rfl
  · rw [isoLoop_eq_foldl, isoBody_foldl_urlString, isoNumbers, List.foldl_map]
  · intro urlTemplate
    unfold WebSiteDictionary.isoAttempted
    rw [isoLoop_eq_foldl, isoBody_foldl_attempted]
    simp [isoNumbers]

theorem utf8Char_zero (c : Char) (h : 0 ∈ utf8Char c) : c = Char.ofNat 0 := by
  have h1 := (utf8Char_bytes c 0 h).2 (by omega)
  have : c = Char.ofNat c.toNat := by simp [Char.ofNat_toNat]
  rw [this, ← h1]

theorem encode_no_zero (s : List Char) (h : ∀ c ∈ s, c ≠ Char.ofNat 0) :
    ∀ b ∈ Utf8.encode s, b ≠ 0 := by
  intro b hb hb0
  subst hb0
  unfold Utf8.encode at hb
  rw [List.mem_flatMap] at hb
  obtain ⟨c, hc, hbc⟩ := hb
  exact h c hc (utf8Char_zero c hbc)

/-- C5 (amended). For every template, word and non-empty context, the resolved URL
is the UTF-8 encoding of the context up to its first NUL character, hence the whole
UTF-8 encoding of a context that has no NUL character; no placeholder substitution
is applied, and codecs, template and word have no influence on it. -/
theorem getArticle_context (cs : Codecs) (urlTemplate : Bytes) (str context : List Char)
    (h : context ≠ []) :
    WebSiteDictionary.urlString cs urlTemplate str context
        = (Utf8.encode context).takeWhile (fun b => b != 0)
      ∧ ((∀ c ∈ context, c ≠ Char.ofNat 0) →
          WebSiteDictionary.urlString cs urlTemplate str context = Utf8.encode context)
      ∧ ∀ (cs' : Codecs) (urlTemplate' : Bytes) (str' : List Char),
          WebSiteDictionary.urlString cs' urlTemplate' str' context
            = WebSiteDictionary.urlString cs urlTemplate str context := by
  have hlen : context.length ≠ 0 := fun e => h (List.length_eq_zero.mp e)
  have e : ∀ (cs' : Codecs) (t : Bytes) (w : List Char),
      WebSiteDictionary.urlString cs' t w context
        = (Utf8.encode context).takeWhile (fun b => b != 0) := by
    intro cs' t w
    unfold WebSiteDictionary.urlString
    rw [if_pos hlen]
    rfl
  refine ⟨e _ _ _, ?_, ?_⟩
  · intro hz
    rw [e]
    apply List.takeWhile_eq_self_iff.mpr
    intro b hb
    simpa using encode_no_zero context hz b hb
  · intro cs' t w
    rw [e, e]

/-- C5, witness: the context `http://h/p?q=é` is used as the URL, whatever the
template and the word. -/
theorem getArticle_context_witness :
    WebSiteDictionary.urlString latin1Only (lit "http://t/%25GDWORD%25") "w".toList
        "http://h/p?q=é".toList = Utf8.encode "http://h/p?q=é".toList := by
  exact (getArticle_context latin1Only (lit "http://t/%25GDWORD%25") "w".toList
    "http://h/p?q=é".toList (by decide)).2.1 (by decide)

/-- C5, counterexample: the context `a`, NUL, `b` is not empty, yet the resolved URL
is the single byte `a` and not the three bytes of the UTF-8 encoding of the
context. -/
theorem getArticle_context_counterexample :
    ['a', Char.ofNat 0, 'b'] ≠ []
      ∧ WebSiteDictionary.urlString latin1Only (lit "http://t/%25GDWORD%25") "w".toList
          ['a', Char.ofNat 0, 'b'] = [97]
      ∧ Utf8.encode ['a', Char.ofNat 0, 'b'] = [97, 0, 98]
      ∧ WebSiteDictionary.urlString latin1Only (lit "http://t/%25GDWORD%25") "w".toList
          ['a', Char.ofNat 0, 'b'] ≠ Utf8.encode ['a', Char.ofNat 0, 'b'] := by
  refine ⟨by decide, by decide, by decide, by decide⟩

/-! ## Facts about the link pass -/

theorem linkScan_skip (T : QCharTables) (u : QUrl) (k : Nat) (l : List Char) :
    linkScan T u k l = linkScan T u 0 (l.drop k) := by
  induction l generalizing k with
  | nil => cases k <;> simp [linkScan]
  | cons c cs ih =>
    cases k with
    | zero => simp
    | succ k => simp [linkScan, ih k]

theorem linkScan_of_findMatch_none (T : QCharTables) (u : QUrl) (l : List Char)
    (h : findMatch (tagsMatch T) l = none) : linkScan T u 0 l = l := by
  induction l with
  | nil => rfl
  | cons c cs ih =>
    unfold findMatch at h
    split at h
    · cases h
    · rename_i e
      split at h
      · cases h
      · rename_i e2
        simp only [linkScan, e, ih e2]

theorem linkScan_of_findMatch_some (T : QCharTables) (u : QUrl) (l : List Char)
    (i n : Nat) (h : findMatch (tagsMatch T) l = some (i, n)) :
    linkScan T u 0 l = l.take i
      ++ (rewriteTag T u ((l.drop i).take n)).getD ((l.drop i).take n)
      ++ linkScan T u 0 (l.drop (i + n)) := by
  induction l generalizing i with
  | nil => simp [findMatch] at h
  | cons c cs ih =>
    have hb := findMatch_bounds _ (tagsMatch_length T) _ _ _ h
    unfold findMatch at h
    split at h
    · rename_i rest e
      simp only [Option.some.injEq, Prod.mk.injEq] at h
      obtain ⟨rfl, hn⟩ := h
      simp only [linkScan, e, List.take_zero, List.nil_append, List.drop_zero, hn, Nat.zero_add]
      rw [linkScan_skip]
      congr 2
      obtain ⟨n', rfl⟩ : ∃ n', n = n' + 1 := ⟨n - 1, by omega⟩
      simp
    · rename_i e
      split at h
      · rename_i i' n' e2
        simp only [Option.some.injEq, Prod.mk.injEq] at h
        obtain ⟨rfl, rfl⟩ := h
        simp only [linkScan, e, ih i' e2]
        simp [Nat.add_right_comm]
      · cases h

theorem linkLoop_eq_linkScan (T : QCharTables) (u : QUrl) :
    ∀ (k : Nat) (s : List Char) (pos : Nat), s.length - pos ≤ k →
      linkLoop T u s pos = s.take pos ++ linkScan T u 0 (s.drop pos) := by
  intro k
  induction k with
  | zero =>
    intro s pos hk
    have hd : s.drop pos = [] := List.drop_eq_nil_iff.mpr (by omega)
    have ht : s.take pos = s := List.take_of_length_le (by omega)
    have e : indexOfTags T s pos = none := by
      simp [indexOfTags, hd, findMatch]
    rw [linkLoop]
    split
    · simp [hd, linkScan, ht]
    · rename_i p n e2
      rw [e] at e2
      cases e2
  | succ k ih =>
    intro s pos hk
    rw [linkLoop]
    split
    · rename_i e
      have e' : findMatch (tagsMatch T) (s.drop pos) = none := by
        unfold indexOfTags at e
        split at e
        · cases e
        · assumption
      rw [linkScan_of_findMatch_none T u _ e', List.take_append_drop]
    · rename_i p n e
      have hb := indexOfTags_bounds T s pos p n e
      obtain ⟨i, rfl, e'⟩ : ∃ i, p = pos + i ∧
          findMatch (tagsMatch T) (s.drop pos) = some (i, n) := by
        unfold indexOfTags at e
        split at e
        · rename_i i n' e2
          simp only [Option.some.injEq, Prod.mk.injEq] at e
          exact ⟨i, e.1.symm, e.2 ▸ e2⟩
        · cases e
      rw [linkScan_of_findMatch_some T u _ i n e']
      have htag : (List.drop i (List.drop pos s)).take n = (s.drop (pos + i)).take n := by
        rw [List.drop_drop]
      have hpre : s.take pos ++ (s.drop pos).take i = s.take (pos + i) := by
        rw [List.take_add]
      have hrest : (s.drop pos).drop (i + n) = s.drop (pos + i + n) := by
        rw [List.drop_drop, Nat.add_assoc]
      rw [htag, hrest, ← List.append_assoc, ← List.append_assoc, hpre]
      split
      · rename_i e3
        have hlen : ((s.drop (pos + i)).take n).length = n := by
          simp only [List.length_take, List.length_drop]
          omega
        rw [hlen, ih s (pos + i + n) (by omega), e3, Option.getD_none]
        congr 1
        rw [List.take_add]
      · rename_i tag e3
        rw [ih _ _ (by
          simp only [replaceAt, List.length_append, List.length_take, List.length_drop]
          omega), e3, Option.getD_some]
        have hl : (s.take (pos + i)).length = pos + i := by
          simp only [List.length_take]
          omega
        have h1 : (replaceAt s (pos + i) n tag).take (pos + i + tag.length)
            = s.take (pos + i) ++ tag := by
          unfold replaceAt
          have : pos + i + tag.length = (s.take (pos + i) ++ tag).length := by
            simp [hl]
          rw [this, List.take_left']
          rfl
        have h2 : (replaceAt s (pos + i) n tag).drop (pos + i + tag.length)
            = s.drop (pos + i + n) := by
          unfold replaceAt
          have : pos + i + tag.length = (s.take (pos + i) ++ tag).length := by
            simp [hl]
          rw [this, List.drop_left']
          rfl
        rw [h1, h2]

theorem linkLoop_zero (T : QCharTables) (u : QUrl) (s : List Char) :
    linkLoop T u s 0 = linkScan T u 0 s := by
  rw [linkLoop_eq_linkScan T u s.length s 0 (by omega)]
  simp

/-! ## Facts about the tag repair -/

theorem closeLoop_eq (closer : List Char) (k : Nat) :
    ∀ (openTags closedTags : Nat) (s : List Char), openTags - closedTags = k →
      closeLoop closer openTags closedTags s = s ++ closers k closer := by
  induction k with
  | zero =>
    intro o c s h
    rw [closeLoop, if_neg (by omega)]
    simp [closers]
  | succ k ih =>
    intro o c s h
    rw [closeLoop, if_pos (by omega), ih o (c + 1) _ (by omega)]
    simp [closers, List.replicate_succ]

theorem isSpace_lt (T : QCharTables) : isSpace T '<' = false := by
  rfl

theorem toLower_lt (T : QCharTables) : toLower T '<' = '<' := by
  rfl

theorem isWord_lt (T : QCharTables) : isWord T '<' = false := by
  rfl

theorem skipSpace_append (T : QCharTables) (l t : List Char) (ht : StartsTag t) :
    skipSpace T (l ++ t) = skipSpace T l ++ t := by
  induction l with
  | nil =>
    rcases ht with rfl | ⟨t', rfl⟩
    · rfl
    · simp [skipSpace, List.dropWhile_cons, isSpace_lt]
  | cons c cs ih =>
    unfold skipSpace at ih ⊢
    rw [List.cons_append, List.dropWhile_cons, List.dropWhile_cons]
    split
    · exact ih
    · rfl

theorem matchLiteral_append_some (T : QCharTables) (name l r t : List Char)
    (h : matchLiteral T name l = some r) : matchLiteral T name (l ++ t) = some (r ++ t) := by
  induction name generalizing l with
  | nil =>
    simp only [matchLiteral, Option.some.injEq] at h
    simp [matchLiteral, h]
  | cons x xs ih =>
    cases l with
    | nil => simp [matchLiteral] at h
    | cons c cs =>
      rw [List.cons_append]
      unfold matchLiteral at h ⊢
      split at h
      · rename_i hc
        rw [if_pos hc]
        exact ih cs h
      · cases h

theorem matchLiteral_append_none (T : QCharTables) (name l t : List Char)
    (ht : StartsTag t) (hn : '<' ∉ name) (h : matchLiteral T name l = none) :
    matchLiteral T name (l ++ t) = none := by
  induction name generalizing l with
  | nil => simp [matchLiteral] at h
  | cons x xs ih =>
    have hx : ¬ ('<' = x) := fun e => hn (e ▸ List.mem_cons_self _ _)
    have hxs : '<' ∉ xs := fun hm => hn (List.mem_cons_of_mem _ hm)
    cases l with
    | nil =>
      rcases ht with rfl | ⟨t', rfl⟩
      · rfl
      · simp [matchLiteral, toLower_lt, hx]
    | cons c cs =>
      rw [List.cons_append]
      unfold matchLiteral at h ⊢
      split at h
      · rename_i hc
        rw [if_pos hc]
        exact ih cs hxs h
      · rename_i hc
        rw [if_neg hc]

theorem head?_append_startsTag (T : QCharTables) (r t : List Char) (ht : StartsTag t) :
    isWordAt T (r ++ t).head? = isWordAt T r.head? := by
  cases r with
  | cons c cs => rfl
  | nil =>
    rcases ht with rfl | ⟨t', rfl⟩
    · rfl
    · simp [isWordAt, isWord_lt]

theorem matchesOpen_append (T : QCharTables) (name l t : List Char) (ht : StartsTag t)
    (hn : '<' ∉ name) (hl : l ≠ []) :
    matchesOpen T name (l ++ t) = matchesOpen T name l := by
  cases l with
  | nil => exact absurd rfl hl
  | cons c l1 =>
    rw [List.cons_append]
    by_cases hc : c = '<'
    · subst hc
      simp only [matchesOpen]
      rw [skipSpace_append T l1 t ht]
      cases hm : matchLiteral T name (skipSpace T l1) with
      | none => rw [matchLiteral_append_none T name _ t ht hn hm]
      | some r =>
        rw [matchLiteral_append_some T name _ r t hm]
        have hlen := matchLiteral_length T name _ r hm
        simp only
        rw [List.take_append_of_le_length (by omega)]
        unfold wordBoundary
        rw [head?_append_startsTag T r t ht]
    · unfold matchesOpen
      split
      · rename_i e
        simp only [List.cons.injEq] at e
        exact absurd e.1 hc
      · split
        · rename_i e
          simp only [List.cons.injEq] at e
          exact absurd e.1 hc
        · rfl

theorem matchesClose_append (T : QCharTables) (name l t : List Char) (ht : StartsTag t)
    (hn : '<' ∉ name) (hl : l ≠ []) :
    matchesClose T name (l ++ t) = matchesClose T name l := by
  cases l with
  | nil => exact absurd rfl hl
  | cons c l1 =>
    rw [List.cons_append]
    by_cases hc : c = '<'
    · subst hc
      simp only [matchesClose]
      rw [skipSpace_append T l1 t ht]
      cases hs : skipSpace T l1 with
      | nil =>
        rcases ht with rfl | ⟨t', rfl⟩
        · rfl
        · rfl
      | cons d l2 =>
        rw [List.cons_append]
        by_cases hd : d = '/'
        · subst hd
          simp only
          cases hm : matchLiteral T name l2 with
          | none => rw [matchLiteral_append_none T name _ t ht hn hm]
          | some r =>
            rw [matchLiteral_append_some T name _ r t hm]
            simp only
            rw [skipSpace_append T r t ht]
            cases hr : skipSpace T r with
            | cons e r' => rfl
            | nil =>
              rcases ht with rfl | ⟨t', rfl⟩
              · rfl
              · rfl
        · split
          · rename_i e
            simp only [List.cons.injEq] at e
            exact absurd e.1 hd
          · split
            · rename_i e
              simp only [List.cons.injEq] at e
              exact absurd e.1 hd
            · rfl
    · unfold matchesClose
      split
      · rename_i e
        simp only [List.cons.injEq] at e
        exact absurd e.1 hc
      · split
        · rename_i e
          simp only [List.cons.injEq] at e
          exact absurd e.1 hc
        · rfl

theorem countMatches_append (p : List Char → Bool) (s t : List Char)
    (hp : ∀ l, l ≠ [] → p (l ++ t) = p l) :
    countMatches p (s ++ t) = countMatches p s + countMatches p t := by
  induction s with
  | nil => simp [countMatches]
  | cons c cs ih =>
    have h1 : countMatches p (c :: cs ++ t)
        = (if p (c :: cs ++ t) then 1 else 0) + countMatches p (cs ++ t) := rfl
    have h2 : countMatches p (c :: cs)
        = (if p (c :: cs) then 1 else 0) + countMatches p cs := rfl
    rw [h1, h2, ih, hp (c :: cs) (by simp)]
    omega

/-! ## The shape of a match of `links` -/

theorem skipSpace_split (T : QCharTables) (l : List Char) :
    ∃ ws, l = ws ++ skipSpace T l ∧ ∀ c ∈ ws, isSpace T c = true :=
  ⟨l.takeWhile (isSpace T), (List.takeWhile_append_dropWhile _ l).symm,
    fun _ hc => List.mem_takeWhile_imp hc⟩

theorem matchLiteral_split (T : QCharTables) (name l r : List Char)
    (h : matchLiteral T name l = some r) :
    l = l.take name.length ++ r ∧ matchLiteral T name (l.take name.length) = some [] := by
  induction name generalizing l with
  | nil =>
    simp only [matchLiteral, Option.some.injEq] at h
    simp [h, matchLiteral]
  | cons x xs ih =>
    cases l with
    | nil => simp [matchLiteral] at h
    | cons c cs =>
      unfold matchLiteral at h
      split at h
      · rename_i hc
        have := ih cs h
        simp only [List.length_cons, List.take_succ_cons, List.cons_append, List.cons.injEq,
          true_and]
        refine ⟨this.1, ?_⟩
        unfold matchLiteral
        rw [if_pos hc]
        exact this.2
      · cases h

theorem linksValue_shape (l v rest : List Char) (h : linksValue l = some (v, rest)) :
    ∃ w q, v = w ++ [q] ∧ l = w ++ [q] ++ rest ∧ w ≠ [] ∧ (q = '\'' ∨ q = '"')
      ∧ ∀ c ∈ w, c ≠ '\'' ∧ c ≠ '"' := by
  unfold linksValue at h
  have hsp := List.span_eq_take_drop (p := fun c => c != '\'' && c != '"') l
  split at h
  · cases h
  · cases h
  · rename_i _ w q r hne2 e
    simp only [Option.some.injEq, Prod.mk.injEq] at h
    obtain ⟨rfl, rfl⟩ := h
    rw [e] at hsp
    simp only [Prod.mk.injEq] at hsp
    obtain ⟨hw, hd⟩ := hsp
    have hl : l = w ++ (q :: r) := by
      rw [hw, hd]
      exact (List.takeWhile_append_dropWhile _ l).symm
    refine ⟨w, q, rfl, by simpa using hl, ?_, ?_, ?_⟩
    · intro hnil
      exact hne2 hnil
    · have hq : ¬ ((fun c => c != '\'' && c != '"') q = true) := by
        have := List.head_dropWhile_not (fun c => c != '\'' && c != '"') l
          (by rw [← hd]; simp)
        simpa [← hd] using this
      simp only [Bool.and_eq_true, bne_iff_ne, ne_eq, not_and, Decidable.not_not] at hq
      by_cases h1 : q = '\''
      · exact Or.inl h1
      · exact Or.inr (hq h1)
    · intro c hc
      rw [hw] at hc
      have := List.mem_takeWhile_imp hc
      simpa using this

theorem linksName_shape (T : QCharTables) (name l : List Char) (m : LinkMatch)
    (hname : name = "src".toList ∨ name = "href".toList)
    (h : linksName T name l = some m) :
    m.linkPos = 0 ∧ ∃ ws1 ws2 q v q' post, LinkShape T l m [] ws1 ws2 q v q' post := by
  unfold linksName at h
  split at h
  · rename_i r1 e1
    obtain ⟨hl1, hcap⟩ := matchLiteral_split T name l r1 e1
    obtain ⟨ws1, hws1, hsp1⟩ := skipSpace_split T r1
    split at h
    · rename_i r2 e2
      obtain ⟨ws2, hws2, hsp2⟩ := skipSpace_split T r2
      split at h
      · rename_i q r3 e3
        split at h
        · rename_i hq
          split at h
          · rename_i v rest e4
            obtain ⟨w, q', rfl, hr3, hw, hq', hwq⟩ := linksValue_shape r3 _ rest e4
            simp only [Option.some.injEq] at h
            subst h
            have hl : l = List.take name.length l
                ++ ws1 ++ ['='] ++ ws2 ++ [q] ++ (w ++ [q']) ++ rest := by
              have a1 : r2 = ws2 ++ q :: r3 := by rw [← e3]; exact hws2
              have a2 : r1 = ws1 ++ '=' :: r2 := by rw [← e2]; exact hws1
              have a3 : l = List.take name.length l ++ r1 := hl1
              rw [a2, a1, hr3] at a3
              simpa [List.append_assoc] using a3
            refine ⟨rfl, ws1, ws2, q, w, q', rest, ?_, ?_, rfl, rfl, ?_, ?_, hq', hw, hwq, ?_⟩
            · simpa [List.append_assoc] using hl
            · have := congrArg List.length hl
              simp only [List.length_append] at this ⊢
              omega
            · intro c hc
              rcases List.mem_append.mp hc with hc | hc
              · exact hsp1 c hc
              · exact hsp2 c hc
            · simpa using hq
            · rcases hname with rfl | rfl
              · exact Or.inl hcap
              · exact Or.inr hcap
          · cases h
        · cases h
      · cases h
    · cases h
  · cases h

theorem linksAt_shape (T : QCharTables) (prev : Option Char) (l : List Char) (m : LinkMatch)
    (h : linksAt T prev l = some m) :
    m.linkPos = 0 ∧ ∃ ws1 ws2 q v q' post, LinkShape T l m [] ws1 ws2 q v q' post := by
  unfold linksAt at h
  split at h
  · split at h
    · rename_i m' e
      cases h
      exact linksName_shape T _ l _ (Or.inl rfl) e
    · exact linksName_shape T _ l _ (Or.inr rfl) h
  · cases h

theorem linksFind_shape (T : QCharTables) (prev : Option Char) (l : List Char) (i : Nat)
    (m : LinkMatch) (h : linksFind T prev l i = some m) :
    ∃ pre ws1 ws2 q v q' post, m.linkPos = i + pre.length
      ∧ LinkShape T l m pre ws1 ws2 q v q' post := by
  induction l generalizing prev i with
  | nil => simp [linksFind] at h
  | cons c cs ih =>
    unfold linksFind at h
    split at h
    · rename_i m' e
      simp only [Option.some.injEq] at h
      subst h
      obtain ⟨_, ws1, ws2, q, v, q', post, hs⟩ := linksAt_shape T prev _ m' e
      exact ⟨[], ws1, ws2, q, v, q', post, rfl, hs⟩
    · obtain ⟨pre, ws1, ws2, q, v, q', post, hp, hs⟩ := ih (some c) (i + 1) h
      refine ⟨c :: pre, ws1, ws2, q, v, q', post, ?_, ?_⟩
      · simp only [List.length_cons]
        omega
      · obtain ⟨h1, h2⟩ := hs
        exact ⟨by rw [h1]; rfl, h2⟩

theorem indexOfLinks_shape (T : QCharTables) (tag : List Char) (m : LinkMatch)
    (h : indexOfLinks T tag = some m) :
    ∃ pre ws1 ws2 q v q' post, m.linkPos = pre.length
      ∧ LinkShape T tag m pre ws1 ws2 q v q' post := by
  obtain ⟨pre, ws1, ws2, q, v, q', post, hp, hs⟩ := linksFind_shape T none tag 0 m h
  exact ⟨pre, ws1, ws2, q, v, q', post, by omega, hs⟩

theorem linkLoop_rewritten (T : QCharTables) (u : QUrl) (s : List Char) (pos p n : Nat)
    (tag : List Char) (h : indexOfTags T s pos = some (p, n))
    (ht : rewriteTag T u ((s.drop p).take n) = some tag) :
    linkLoop T u s pos = linkLoop T u (replaceAt s p n tag) (p + tag.length) := by
  rw [linkLoop]
  split
  · rename_i e
    rw [h] at e
    cases e
  · rename_i p' n' e
    rw [h] at e
    simp only [Option.some.injEq, Prod.mk.injEq] at e
    obtain ⟨rfl, rfl⟩ := e
    simp only [ht]

theorem linkLoop_passed_over (T : QCharTables) (u : QUrl) (s : List Char) (pos p n : Nat)
    (h : indexOfTags T s pos = some (p, n))
    (ht : rewriteTag T u ((s.drop p).take n) = none) :
    linkLoop T u s pos = linkLoop T u s (p + n) := by
  have hb := indexOfTags_bounds T s pos p n h
  have hlen : ((s.drop p).take n).length = n := by
    simp only [List.length_take, List.length_drop]
    omega
  rw [linkLoop]
  split
  · rename_i e
    rw [h] at e
    cases e
  · rename_i p' n' e
    rw [h] at e
    simp only [Option.some.injEq, Prod.mk.injEq] at e
    obtain ⟨rfl, rfl⟩ := e
    simp only [ht, hlen]

theorem linkLoop_no_match (T : QCharTables) (u : QUrl) (s : List Char) (pos : Nat)
    (h : indexOfTags T s pos = none) : linkLoop T u s pos = s := by
  rw [linkLoop]
  split
  · rfl
  · rename_i p n e
    rw [h] at e
    cases e

theorem matchedTagsFrom_skip (T : QCharTables) (k : Nat) (l : List Char) :
    matchedTagsFrom T k l = matchedTagsFrom T 0 (l.drop k) := by
  induction l generalizing k with
  | nil => cases k <;> simp [matchedTagsFrom]
  | cons c cs ih =>
    cases k with
    | zero => simp
    | succ k => simp [matchedTagsFrom, ih k]

theorem linkScan_unchanged (T : QCharTables) (u : QUrl) :
    ∀ (k : Nat) (l : List Char), l.length ≤ k →
      (∀ tag ∈ matchedTagsFrom T 0 l, rewriteTag T u tag = none) → linkScan T u 0 l = l := by
  intro k
  induction k with
  | zero =>
    intro l hl _
    have : l = [] := List.length_eq_zero.mp (by omega)
    subst this
    rfl
  | succ k ih =>
    intro l hl h
    cases l with
    | nil => rfl
    | cons c cs =>
      cases e : tagsMatch T (c :: cs) with
      | none =>
        simp only [matchedTagsFrom, e] at h
        simp only [linkScan, e]
        rw [ih cs (by simpa using hl) h]
      | some rest =>
        have hr := tagsMatch_length T _ _ e
        simp only [matchedTagsFrom, e, List.mem_cons, forall_eq_or_imp] at h
        simp only [linkScan, e]
        rw [h.1, Option.getD_none, linkScan_skip]
        have h2 := h.2
        rw [matchedTagsFrom_skip] at h2
        rw [ih _ (by
          simp only [List.length_drop]
          simp only [List.length_cons] at hl
          omega) h2]
        obtain ⟨n', hn'⟩ : ∃ n', (c :: cs).length - rest.length = n' + 1 :=
          ⟨(c :: cs).length - rest.length - 1, by omega⟩
        rw [hn']
        simp only [List.take_succ_cons, Nat.add_sub_cancel, List.cons_append, List.cons.injEq,
          true_and]
        exact List.take_append_drop _ _

theorem closers_succ (k : Nat) (closer : List Char) :
    closers (k + 1) closer = closer ++ closers k closer := by
  simp [closers, List.replicate_succ]

theorem closers_startsTag (k : Nat) (c' : List Char) : StartsTag (closers k ('<' :: c')) := by
  cases k with
  | zero => exact Or.inl rfl
  | succ k => exact Or.inr ⟨c' ++ closers k ('<' :: c'), by rw [closers_succ]; rfl⟩

theorem countMatches_closers (p : List Char → Bool)
    (hp : ∀ t, StartsTag t → ∀ l, l ≠ [] → p (l ++ t) = p l) (k : Nat) (c' : List Char) :
    countMatches p (closers k ('<' :: c')) = k * countMatches p ('<' :: c') := by
  induction k with
  | zero => simp [closers, countMatches]
  | succ k ih =>
    rw [closers_succ, countMatches_append p _ _ (hp _ (closers_startsTag k c')), ih]
    ring

theorem countMatches_repaired (p : List Char → Bool)
    (hp : ∀ t, StartsTag t → ∀ l, l ≠ [] → p (l ++ t) = p l) (s : List Char) (k1 k2 : Nat) :
    countMatches p (s ++ closers k1 "</span>".toList ++ closers k2 "</div>".toList)
      = countMatches p s + k1 * countMatches p "</span>".toList
        + k2 * countMatches p "</div>".toList := by
  have e1 : "</span>".toList = '<' :: "/span>".toList := rfl
  have e2 : "</div>".toList = '<' :: "/div>".toList := rfl
  rw [e1, e2, countMatches_append p _ _ (hp _ (closers_startsTag k2 _)),
    countMatches_append p _ _ (hp _ (closers_startsTag k1 _)),
    countMatches_closers p hp, countMatches_closers p hp]

theorem matchesOpen_local (T : QCharTables) (name : List Char) (hn : '<' ∉ name) :
    ∀ t, StartsTag t → ∀ l, l ≠ [] → matchesOpen T name (l ++ t) = matchesOpen T name l :=
  fun t ht l hl => matchesOpen_append T name l t ht hn hl

theorem matchesClose_local (T : QCharTables) (name : List Char) (hn : '<' ∉ name) :
    ∀ t, StartsTag t → ∀ l, l ≠ [] → matchesClose T name (l ++ t) = matchesClose T name l :=
  fun t ht l hl => matchesClose_append T name l t ht hn hl

theorem closeSpans_eq (T : QCharTables) (s : List Char) :
    closeSpans T s = s ++ closers
      (countMatches (matchesOpen T "span".toList) s
        - countMatches (matchesClose T "span".toList) s) "</span>".toList :=
  closeLoop_eq _ _ _ _ _ rfl

theorem closeDivs_closeSpans_eq (T : QCharTables) (s : List Char) :
    closeDivs T (closeSpans T s) = closeSpans T s ++ closers
      (countMatches (matchesOpen T "div".toList) s
        - countMatches (matchesClose T "div".toList) s) "</div>".toList := by
  have c5 : countMatches (matchesOpen T "div".toList) "</span>".toList = 0 := rfl
  have c6 : countMatches (matchesOpen T "div".toList) "</div>".toList = 0 := rfl
  have c7 : countMatches (matchesClose T "div".toList) "</span>".toList = 0 := rfl
  have c8 : countMatches (matchesClose T "div".toList) "</div>".toList = 1 := rfl
  have h0 := countMatches_repaired _ (matchesOpen_local T "div".toList (by decide)) s
    (countMatches (matchesOpen T "span".toList) s
      - countMatches (matchesClose T "span".toList) s) 0
  have h1 := countMatches_repaired _ (matchesClose_local T "div".toList (by decide)) s
    (countMatches (matchesOpen T "span".toList) s
      - countMatches (matchesClose T "span".toList) s) 0
  have espan := closeSpans_eq T s
  simp only [closers, List.replicate_zero, List.flatten_nil, List.append_nil] at h0 h1 espan
  unfold closeDivs
  rw [closeLoop_eq _ _ _ _ _ rfl, espan, h0, h1, c5, c6, c7, c8]
  simp [closers]

/-! ## Claims on the normalizer -/

/-- C8. For every body, with `o` matches of the opening pattern `<\s*span\b` and `c`
of the closing pattern `<\s*/span\s*>` (both case-insensitive), the repair appends
exactly `o - c` strings `</span>` when `o > c` and none otherwise; then, counted
in the same way and not disturbed by the span closers, the missing `</div>` are
appended; afterwards the closings are at least as many as the openings for both
kinds. A body with two `<div>` openings and no closing gets exactly two `</div>`. -/
theorem requestFinished_tag_balance (T : QCharTables) (articleString : List Char) :
    closeSpans T articleString
        = articleString ++ closers
            (countMatches (matchesOpen T "span".toList) articleString
              - countMatches (matchesClose T "span".toList) articleString) "</span>".toList
      ∧ closeDivs T (closeSpans T articleString)
        = closeSpans T articleString ++ closers
            (countMatches (matchesOpen T "div".toList) articleString
              - countMatches (matchesClose T "div".toList) articleString) "</div>".toList
      ∧ countMatches (matchesOpen T "span".toList) (closeDivs T (closeSpans T articleString))
          ≤ countMatches (matchesClose T "span".toList)
              (closeDivs T (closeSpans T articleString))
      ∧ countMatches (matchesOpen T "div".toList) (closeDivs T (closeSpans T articleString))
          ≤ countMatches (matchesClose T "div".toList)
              (closeDivs T (closeSpans T articleString))
      ∧ closeDivs T (closeSpans T "<div><div>x".toList) = "<div><div>x</div></div>".toList := by
  have c1 : countMatches (matchesOpen T "span".toList) "</span>".toList = 0 := rfl
  have c2 : countMatches (matchesOpen T "span".toList) "</div>".toList = 0 := rfl
  have c3 : countMatches (matchesClose T "span".toList) "</span>".toList = 1 := rfl
  have c4 : countMatches (matchesClose T "span".toList) "</div>".toList = 0 := rfl
  have c5 : countMatches (matchesOpen T "div".toList) "</span>".toList = 0 := rfl
  have c6 : countMatches (matchesOpen T "div".toList) "</div>".toList = 0 := rfl
  have c7 : countMatches (matchesClose T "div".toList) "</span>".toList = 0 := rfl
  have c8 : countMatches (matchesClose T "div".toList) "</div>".toList = 1 := rfl
  refine ⟨closeSpans_eq T _, closeDivs_closeSpans_eq T _, ?_, ?_, ?_⟩
  · rw [closeDivs_closeSpans_eq, closeSpans_eq,
      countMatches_repaired _ (matchesOpen_local T "span".toList (by decide)),
      countMatches_repaired _ (matchesClose_local T "span".toList (by decide)),
      c1, c2, c3, c4]
    omega
  · rw [closeDivs_closeSpans_eq, closeSpans_eq,
      countMatches_repaired _ (matchesOpen_local T "div".toList (by decide)),
      countMatches_repaired _ (matchesClose_local T "div".toList (by decide)),
      c5, c6, c7, c8]
    omega
  · have d1 : countMatches (matchesOpen T "span".toList) "<div><div>x".toList = 0 := rfl
    have d2 : countMatches (matchesClose T "span".toList) "<div><div>x".toList = 0 := rfl
    have d3 : countMatches (matchesOpen T "div".toList) "<div><div>x".toList = 2 := rfl
    have d4 : countMatches (matchesClose T "div".toList) "<div><div>x".toList = 0 := rfl
    rw [closeDivs_closeSpans_eq, closeSpans_eq, d1, d2, d3, d4]
    rfl

/-- C6 (amended). For every fetched URL with scheme `s` and host `h` and every tag in
which `links` finds a `src`/`href` attribute whose value starts with `/` and contains
none of `:/`, `data:`, `mailto:`: the tag consists of the text before the attribute,
the attribute name, white space, `=`, white space, the opening quote, the value with
its closing quote, and the text behind; it is rewritten to the text before, the
attribute name, `=`, the opening quote, then `s:` when the value starts with `//`
and `s://h` otherwise, the value with its closing quote, and the text behind. So
the value is prefixed and nothing else changes but the white space around `=`,
which is dropped. In the link pass the matched tag is replaced by this text and the
scan goes on behind it. -/
theorem requestFinished_host_relative_links (T : QCharTables) (replyUrl : QUrl)
    (tag : List Char) (m : LinkMatch)
    (hm : indexOfLinks T tag = some m)
    (h1 : contains m.cap3 ":/".toList = false)
    (h2 : contains m.cap3 "data:".toList = false)
    (h3 : contains m.cap3 "mailto:".toList = false)
    (hs : "/".toList.isPrefixOf m.cap3 = true) :
    rewriteTag T replyUrl tag
        = some (tag.take m.linkPos
            ++ (m.cap1 ++ ['='] ++ m.cap2
              ++ (if "//".toList.isPrefixOf m.cap3 then replyUrl.scheme ++ [':']
                  else replyUrl.scheme ++ "://".toList ++ replyUrl.host)
              ++ m.cap3)
            ++ tag.drop (m.linkPos + m.size))
      ∧ (∃ ws1 ws2 q v q', LinkShape T tag m (tag.take m.linkPos) ws1 ws2 q v q'
          (tag.drop (m.linkPos + m.size)))
      ∧ ∀ (articleString : List Char) (pos p n : Nat) (newTag : List Char),
          indexOfTags T articleString pos = some (p, n) →
          (articleString.drop p).take n = tag →
          rewriteTag T replyUrl tag = some newTag →
          linkLoop T replyUrl articleString pos
            = linkLoop T replyUrl (replaceAt articleString p n newTag)
                (p + newTag.length) := by
  obtain ⟨pre, ws1, ws2, q, v, q', post, hpos, hshape⟩ := indexOfLinks_shape T tag m hm
  have htake : tag.take m.linkPos = pre := by
    rw [hshape.1, hpos, List.append_assoc, List.take_left']
    rfl
  have hdrop : tag.drop (m.linkPos + m.size) = post := by
    rw [hshape.2.1, hpos, hshape.1, ← List.length_append, List.drop_left']
    rfl
  refine ⟨?_, ⟨ws1, ws2, q, v, q', by rw [htake, hdrop]; exact hshape⟩, ?_⟩
  · have hhash : "#".toList.isPrefixOf m.cap3 = false := by
      cases hc : m.cap3 with
      | nil => rfl
      | cons c cs =>
        rw [hc] at hs
        have : '/' = c := by simpa [List.isPrefixOf] using hs
        subst this
        rfl
    unfold rewriteTag
    simp only [hm, h1, h2, h3, hhash, hs, Bool.or_self, Bool.false_eq_true, if_false, if_true,
      replaceAt]
    split <;> simp [root, List.append_assoc]
  · intro s pos p n newTag hidx htag hnew
    exact linkLoop_rewritten T replyUrl s pos p n _ hidx (by rw [htag]; exact hnew)

/-- C6, witness: `<img src="/x.png">` fetched from `https://h/a/b` becomes
`<img src="https://h/x.png">`, and the link pass over a body with this tag replaces
it so. -/
theorem requestFinished_host_relative_links_witness :
    rewriteTag asciiTables exampleUrl "<img src=\"/x.png\">".toList
        = some "<img src=\"https://h/x.png\">".toList
      ∧ linkLoop asciiTables exampleUrl "<p><img src=\"/x.png\"></p>".toList 0
        = "<p><img src=\"https://h/x.png\"></p>".toList
      ∧ linkLoop asciiTables exampleUrl "<script src='//cdn/x.js'></script>".toList 0
        = "<script src='https://cdn/x.js'></script>".toList := by
  have h := requestFinished_host_relative_links asciiTables exampleUrl
    "<img src=\"/x.png\">".toList
    { linkPos := 5, cap1 := "src".toList, cap2 := "\"".toList, cap3 := "/x.png\"".toList,
      size := 12 }
    (by decide) (by decide) (by decide) (by decide) (by decide)
  refine ⟨h.1.trans (by decide), ?_, ?_⟩ <;> rw [linkLoop_zero] <;> decide

/-- C6, counterexample: fetched from `https://h/a/b`, the tag
`<a href="/go?to=http://o/p">`, whose value starts with a single `/`, is matched by
the link pass and left as it is, not prefixed with `https://h`; and
`<a href = "/x">` becomes `<a href="https://h/x">`, so that the rest of the tag is
not unchanged: the blanks around `=` are gone. -/
theorem requestFinished_host_relative_links_counterexample :
    matchedTags asciiTables "<a href=\"/go?to=http://o/p\">".toList
        = ["<a href=\"/go?to=http://o/p\">".toList]
      ∧ linkLoop asciiTables exampleUrl "<a href=\"/go?to=http://o/p\">".toList 0
        = "<a href=\"/go?to=http://o/p\">".toList
      ∧ linkLoop asciiTables exampleUrl "<a href=\"/go?to=http://o/p\">".toList 0
        ≠ "<a href=\"https://h/go?to=http://o/p\">".toList
      ∧ linkLoop asciiTables exampleUrl "<a href = \"/x\">".toList 0
        = "<a href=\"https://h/x\">".toList
      ∧ linkLoop asciiTables exampleUrl "<a href = \"/x\">".toList 0
        ≠ "<a href = \"https://h/x\">".toList := by
  refine ⟨by decide, ?_, ?_, ?_, ?_⟩ <;> rw [linkLoop_zero] <;> decide

theorem contains_of_isPrefixOf (s pat : List Char) (h : pat.isPrefixOf s = true) :
    contains s pat = true := by
  cases s with
  | nil => exact h
  | cons c cs => simp [contains, h]

/-- C7. For every fetched URL: a tag in which `links` finds a `src`/`href` value that
starts with `#`, starts with `mailto:` or `data:`, or carries the scheme marker `:/`
is passed over by the link pass, which goes on behind the tag without touching the
text; and a body all of whose matched tags are of this kind (or have no such
attribute at all), or that has no matched tag, is returned unchanged by the pass. -/
theorem requestFinished_external_links (T : QCharTables) (replyUrl : QUrl) :
    (∀ (tag : List Char) (m : LinkMatch), indexOfLinks T tag = some m →
        ("#".toList.isPrefixOf m.cap3 = true ∨ "mailto:".toList.isPrefixOf m.cap3 = true
          ∨ "data:".toList.isPrefixOf m.cap3 = true ∨ contains m.cap3 ":/".toList = true) →
        rewriteTag T replyUrl tag = none)
      ∧ (∀ (articleString : List Char) (pos p n : Nat),
          indexOfTags T articleString pos = some (p, n) →
          rewriteTag T replyUrl ((articleString.drop p).take n) = none →
          linkLoop T replyUrl articleString pos = linkLoop T replyUrl articleString (p + n))
      ∧ (∀ articleString : List Char,
          (∀ tag ∈ matchedTags T articleString, ∀ m : LinkMatch,
            indexOfLinks T tag = some m →
            ("#".toList.isPrefixOf m.cap3 = true ∨ "mailto:".toList.isPrefixOf m.cap3 = true
              ∨ "data:".toList.isPrefixOf m.cap3 = true
              ∨ contains m.cap3 ":/".toList = true)) →
          linkLoop T replyUrl articleString 0 = articleString) := by
  have tagLevel : ∀ (tag : List Char) (m : LinkMatch), indexOfLinks T tag = some m →
      ("#".toList.isPrefixOf m.cap3 = true ∨ "mailto:".toList.isPrefixOf m.cap3 = true
        ∨ "data:".toList.isPrefixOf m.cap3 = true ∨ contains m.cap3 ":/".toList = true) →
      rewriteTag T replyUrl tag = none := by
    intro tag m hm hk
    have hcond : (contains m.cap3 ":/".toList || contains m.cap3 "data:".toList
        || contains m.cap3 "mailto:".toList || "#".toList.isPrefixOf m.cap3) = true := by
      rcases hk with h | h | h | h
      · rw [h, Bool.or_true]
      · rw [contains_of_isPrefixOf _ _ h, Bool.or_true, Bool.true_or]
      · rw [contains_of_isPrefixOf _ _ h, Bool.or_true, Bool.true_or, Bool.true_or]
      · rw [h, Bool.true_or, Bool.true_or, Bool.true_or]
    unfold rewriteTag
    simp only [hm, hcond, if_true]
  refine ⟨tagLevel, ?_, ?_⟩
  · intro s pos p n hidx hnone
    exact linkLoop_passed_over T replyUrl s pos p n hidx hnone
  · intro s h
    rw [linkLoop_zero]
    apply linkScan_unchanged T replyUrl s.length s le_rfl
    intro tag htag
    cases hm : indexOfLinks T tag with
    | none =>
      unfold rewriteTag
      simp only [hm]
    | some m => exact tagLevel tag m hm (h tag htag m hm)

/-- C7, examples: fetched from `https://h/a/b`, a body whose tags have the values
`#frag`, `mailto:x@y`, `https://other/p` and a `data:` URI is returned unchanged. -/
theorem requestFinished_external_links_witness :
    matchedTags asciiTables
        "<a href=\"#frag\">f</a><a href=\"mailto:x@y\">m</a><img src='data:image/png;base64,AA'><a href=\"https://other/p\">o</a>".toList
        = ["<a href=\"#frag\">".toList, "<a href=\"mailto:x@y\">".toList,
           "<img src='data:image/png;base64,AA'>".toList,
           "<a href=\"https://other/p\">".toList]
      ∧ linkLoop asciiTables exampleUrl
          "<a href=\"#frag\">f</a><a href=\"mailto:x@y\">m</a><img src='data:image/png;base64,AA'><a href=\"https://other/p\">o</a>".toList
          0
        = "<a href=\"#frag\">f</a><a href=\"mailto:x@y\">m</a><img src='data:image/png;base64,AA'><a href=\"https://other/p\">o</a>".toList
      ∧ linkLoop asciiTables exampleUrl "<p>no <b>tag</b> with a link</p>".toList 0
        = "<p>no <b>tag</b> with a link</p>".toList := by
  have hm : matchedTags asciiTables
        "<a href=\"#frag\">f</a><a href=\"mailto:x@y\">m</a><img src='data:image/png;base64,AA'><a href=\"https://other/p\">o</a>".toList
        = ["<a href=\"#frag\">".toList, "<a href=\"mailto:x@y\">".toList,
           "<img src='data:image/png;base64,AA'>".toList,
           "<a href=\"https://other/p\">".toList] := by
    decide
  have hm0 : matchedTags asciiTables "<p>no <b>tag</b> with a link</p>".toList = [] := by
    decide
  have hk : ∀ tag ∈ ["<a href=\"#frag\">".toList, "<a href=\"mailto:x@y\">".toList,
      "<img src='data:image/png;base64,AA'>".toList, "<a href=\"https://other/p\">".toList],
      (indexOfLinks asciiTables tag).all (fun m =>
        "#".toList.isPrefixOf m.cap3 || "mailto:".toList.isPrefixOf m.cap3
          || "data:".toList.isPrefixOf m.cap3 || contains m.cap3 ":/".toList) = true := by
    decide
  refine ⟨hm, ?_, ?_⟩
  · apply (requestFinished_external_links asciiTables exampleUrl).2.2
    rw [hm]
    intro tag htag m hmatch
    have h := hk tag htag
    rw [hmatch] at h
    simp only [Option.all_some, Bool.or_eq_true] at h
    rcases h with ((h | h) | h) | h
    · exact Or.inl h
    · exact Or.inr (Or.inl h)
    · exact Or.inr (Or.inr (Or.inl h))
    · exact Or.inr (Or.inr (Or.inr h))
  · apply (requestFinished_external_links asciiTables exampleUrl).2.2
    rw [hm0]
    intro tag htag
    cases htag

/-! ## Claims on the life cycle of a request -/

theorem deliver_redirect (T : QCharTables) (req : WebSiteArticleRequest) (r : QNetworkReply)
    (hf : req.isFinishedFlag = false) (hr : r.noError = true ∧ r.redirectUrl ≠ []) :
    deliver T req r = { req with netReply := (req.mgr.get r.redirectUrl).1
                                 mgr := (req.mgr.get r.redirectUrl).2 } := by
  unfold deliver WebSiteArticleRequest.requestFinished onTracked
  simp [WebSiteArticleRequest.isFinished, hf, hr.1, hr.2]

theorem deliver_redirects (T : QCharTables) (redirects : List QNetworkReply)
    (hred : ∀ r ∈ redirects, r.noError = true ∧ r.redirectUrl ≠ []) :
    ∀ req : WebSiteArticleRequest, req.isFinishedFlag = false →
      (redirects.foldl (deliver T) req).isFinishedFlag = false
        ∧ (redirects.foldl (deliver T) req).data = req.data
        ∧ (redirects.foldl (deliver T) req).hasAnyData = req.hasAnyData
        ∧ (redirects.foldl (deliver T) req).errorString = req.errorString
        ∧ (redirects.foldl (deliver T) req).dictPtr = req.dictPtr
        ∧ (redirects.foldl (deliver T) req).mgr.requested
            = req.mgr.requested ++ redirects.map (fun r => r.redirectUrl) := by
  induction redirects with
  | nil =>
    intro req hf
    simp [hf]
  | cons r rs ih =>
    intro req hf
    have hr := hred r (by simp)
    have h := ih (fun x hx => hred x (by simp [hx])) (deliver T req r)
      (by rw [deliver_redirect T req r hf hr]; exact hf)
    rw [List.foldl_cons]
    rw [deliver_redirect T req r hf hr] at h ⊢
    obtain ⟨h1, h2, h3, h4, h5, h6⟩ := h
    refine ⟨h1, h2, h3, h4, h5, ?_⟩
    rw [h6]
    simp [QNetworkAccessManager.get]

/-- C9. For a new request and every sequence of redirect responses on the tracked
exchange followed by one successful terminal response: after each redirect the
request is unfinished, its buffer is empty and `hasAnyData` is not set, and a GET
for every redirect target has been issued; after the terminal response the buffer is
the normalized form (link pass against the URL of the terminal reply, tag repair,
padding, wrapper) of the body of the terminal response only, `hasAnyData` is set and
the request is finished. -/
theorem requestFinished_redirect_chain (T : QCharTables) (url : List Char)
    (mgr : QNetworkAccessManager) (dictPtr : Class) (redirects : List QNetworkReply)
    (final : QNetworkReply)
    (hred : ∀ r ∈ redirects, r.noError = true ∧ r.redirectUrl ≠ [])
    (hfinal : final.noError = true ∧ final.redirectUrl = []) :
    (∀ k : Nat,
        ((redirects.take k).foldl (deliver T)
            (WebSiteArticleRequest.new url mgr dictPtr)).isFinished = false
          ∧ ((redirects.take k).foldl (deliver T)
              (WebSiteArticleRequest.new url mgr dictPtr)).data = []
          ∧ ((redirects.take k).foldl (deliver T)
              (WebSiteArticleRequest.new url mgr dictPtr)).hasAnyData = false
          ∧ ((redirects.take k).foldl (deliver T)
              (WebSiteArticleRequest.new url mgr dictPtr)).mgr.requested
            = mgr.requested ++ [url] ++ (redirects.take k).map (fun r => r.redirectUrl))
      ∧ (deliver T (redirects.foldl (deliver T)
            (WebSiteArticleRequest.new url mgr dictPtr)) final).data
          = articleBody T dictPtr final.url final.articleString
      ∧ (deliver T (redirects.foldl (deliver T)
            (WebSiteArticleRequest.new url mgr dictPtr)) final).hasAnyData = true
      ∧ (deliver T (redirects.foldl (deliver T)
            (WebSiteArticleRequest.new url mgr dictPtr)) final).isFinished = true := by
  have hnew : (WebSiteArticleRequest.new url mgr dictPtr).isFinishedFlag = false := rfl
  have hall := deliver_redirects T redirects hred _ hnew
  have hfin : ∀ req : WebSiteArticleRequest, req.isFinishedFlag = false →
      deliver T req final = WebSiteArticleRequest.finish
        { req with data := req.data ++ articleBody T req.dictPtr final.url final.articleString
                   hasAnyData := true } := by
    intro req hf
    unfold deliver WebSiteArticleRequest.requestFinished onTracked
    simp [WebSiteArticleRequest.isFinished, hf, hfinal.1, hfinal.2]
  refine ⟨?_, ?_, ?_, ?_⟩
  · intro k
    have hk := deliver_redirects T (redirects.take k)
      (fun r hr => hred r (List.mem_of_mem_take hr)) _ hnew
    refine ⟨hk.1, hk.2.1, hk.2.2.1, ?_⟩
    rw [hk.2.2.2.2.2]
    rfl
  · rw [hfin _ hall.1]
    simp only [WebSiteArticleRequest.finish]
    rw [hall.2.1, hall.2.2.2.2.1]
    rfl
  · rw [hfin _ hall.1]
    rfl
  · rw [hfin _ hall.1]
    rfl

/-- C9, witness: two redirects and then the body `<b>x</b>` for the dictionary `ab`.
The buffer is the fragment for that body alone. -/
theorem requestFinished_redirect_chain_witness :
    (deliver asciiTables ([exampleRedirect, exampleRedirect].foldl (deliver asciiTables)
        (WebSiteArticleRequest.new "https://h/a/b".toList { requested := [] } exampleDict))
        exampleSuccess).data
      = lit ("<div class=\"website_padding\"></div><div class=\"website_ab\">"
          ++ "<b>x</b>"
          ++ "</font></font></font></font></font></font>"
          ++ "</font></font></font></font></font></font>"
          ++ "</b></b></b></b></b></b></b></b>"
          ++ "</i></i></i></i></i></i></i></i>"
          ++ "</a></a></a></a></a></a></a></a>"
          ++ "</div>") := by
  have h := requestFinished_redirect_chain asciiTables "https://h/a/b".toList
    { requested := [] } exampleDict [exampleRedirect, exampleRedirect] exampleSuccess
    (by decide) (by decide)
  rw [h.2.1]
  have e1 : linkLoop asciiTables exampleUrl "<b>x</b>".toList 0 = "<b>x</b>".toList := by
    rw [linkLoop_zero]
    decide
  unfold articleBody processedBody
  simp only [exampleSuccess, e1]
  rw [closeDivs_closeSpans_eq, closeSpans_eq]
  decide

theorem requestFinished_of_finished (T : QCharTables) (req : WebSiteArticleRequest)
    (r : QNetworkReply) (h : req.isFinishedFlag = true) :
    req.requestFinished T r = req := by
  unfold WebSiteArticleRequest.requestFinished
  simp [WebSiteArticleRequest.isFinished, h]

theorem requestFinished_foldl_of_finished (T : QCharTables) (rs : List QNetworkReply)
    (req : WebSiteArticleRequest) (h : req.isFinishedFlag = true) :
    rs.foldl (WebSiteArticleRequest.requestFinished T) req = req := by
  induction rs with
  | nil => rfl
  | cons r rs ih => rw [List.foldl_cons, requestFinished_of_finished T req r h, ih]

theorem requestFinished_unfinished_empty (T : QCharTables) (req : WebSiteArticleRequest)
    (r : QNetworkReply)
    (hinv : req.isFinishedFlag = false → req.data = [] ∧ req.hasAnyData = false) :
    (req.requestFinished T r).isFinishedFlag = false →
      (req.requestFinished T r).data = [] ∧ (req.requestFinished T r).hasAnyData = false := by
  unfold WebSiteArticleRequest.requestFinished
  split
  · exact hinv
  · rename_i hf
    have hf' : req.isFinishedFlag = false := by
      simpa [WebSiteArticleRequest.isFinished] using hf
    split
    · exact hinv
    · split
      · split
        · intro _
          exact hinv hf'
        · intro h
          simp [WebSiteArticleRequest.finish] at h
      · intro h
        simp [WebSiteArticleRequest.finish, WebSiteArticleRequest.setErrorString] at h

theorem requestFinished_foldl_unfinished_empty (T : QCharTables) (rs : List QNetworkReply) :
    ∀ req : WebSiteArticleRequest,
      (req.isFinishedFlag = false → req.data = [] ∧ req.hasAnyData = false) →
      (rs.foldl (WebSiteArticleRequest.requestFinished T) req).isFinishedFlag = false →
      (rs.foldl (WebSiteArticleRequest.requestFinished T) req).data = []
        ∧ (rs.foldl (WebSiteArticleRequest.requestFinished T) req).hasAnyData = false := by
  induction rs with
  | nil =>
    intro req hinv h
    exact hinv h
  | cons r rs ih =>
    intro req hinv
    rw [List.foldl_cons]
    exact ih _ (requestFinished_unfinished_empty T req r hinv)

/-- C10. If `cancel()` is called on a request that, after any notifications, is not
finished yet, the request is finished at once and, for every later sequence of
transport notifications, it stays finished, its buffer stays empty and `hasAnyData`
stays false. If `cancel()` is called on a finished request, the request is left as it
is; in every case the stored bytes and the error string are those from before the
call. Calling `cancel()` twice is calling it once. -/
theorem cancel_request (T : QCharTables) (url : List Char) (mgr : QNetworkAccessManager)
    (dictPtr : Class) (before later : List QNetworkReply)
    (h : (before.foldl (WebSiteArticleRequest.requestFinished T)
        (WebSiteArticleRequest.new url mgr dictPtr)).isFinished = false) :
    ((before.foldl (WebSiteArticleRequest.requestFinished T)
        (WebSiteArticleRequest.new url mgr dictPtr)).cancel).isFinished = true
      ∧ (later.foldl (WebSiteArticleRequest.requestFinished T)
          ((before.foldl (WebSiteArticleRequest.requestFinished T)
            (WebSiteArticleRequest.new url mgr dictPtr)).cancel)).isFinished = true
      ∧ (later.foldl (WebSiteArticleRequest.requestFinished T)
          ((before.foldl (WebSiteArticleRequest.requestFinished T)
            (WebSiteArticleRequest.new url mgr dictPtr)).cancel)).data = []
      ∧ (later.foldl (WebSiteArticleRequest.requestFinished T)
          ((before.foldl (WebSiteArticleRequest.requestFinished T)
            (WebSiteArticleRequest.new url mgr dictPtr)).cancel)).hasAnyData = false
      ∧ (∀ req : WebSiteArticleRequest, req.isFinished = true → req.cancel = req)
      ∧ (∀ req : WebSiteArticleRequest,
          req.cancel.data = req.data ∧ req.cancel.errorString = req.errorString)
      ∧ (∀ req : WebSiteArticleRequest, req.cancel.cancel = req.cancel) := by
  have hempty := requestFinished_foldl_unfinished_empty T before
    (WebSiteArticleRequest.new url mgr dictPtr) (fun _ => ⟨rfl, rfl⟩) h
  have hc : ((before.foldl (WebSiteArticleRequest.requestFinished T)
      (WebSiteArticleRequest.new url mgr dictPtr)).cancel).isFinishedFlag = true := rfl
  rw [requestFinished_foldl_of_finished T later _ hc]
  refine ⟨rfl, rfl, hempty.1, hempty.2, ?_, fun _ => ⟨rfl, rfl⟩, fun _ => rfl⟩
  intro req hreq
  cases req
  simp only [WebSiteArticleRequest.isFinished] at hreq
  simp only [WebSiteArticleRequest.cancel, WebSiteArticleRequest.finish, hreq]

/-- C10, witness: a request is cancelled after one redirect; the successful response
that arrives afterwards on the tracked exchange leaves the buffer empty. -/
theorem cancel_request_witness :
    (([{ exampleSuccess with handle := 1 }] : List QNetworkReply).foldl
        (WebSiteArticleRequest.requestFinished asciiTables)
        (([exampleRedirect] : List QNetworkReply).foldl
          (WebSiteArticleRequest.requestFinished asciiTables)
          (WebSiteArticleRequest.new "https://h/a/b".toList { requested := [] }
            exampleDict)).cancel).data = []
      ∧ (([exampleRedirect] : List QNetworkReply).foldl
          (WebSiteArticleRequest.requestFinished asciiTables)
          (WebSiteArticleRequest.new "https://h/a/b".toList { requested := [] }
            exampleDict)).netReply = 1 :=
  ⟨(cancel_request asciiTables "https://h/a/b".toList { requested := [] } exampleDict
      [exampleRedirect] [{ exampleSuccess with handle := 1 }] (by decide)).2.2.1,
    by decide⟩

/-! ## Further claims on the life cycle of a request -/

/-- The states a request goes through: a new request and what the notifications
`rs`, in this order, make of it. -/
theorem reachable_unfinished_empty (T : QCharTables) (url : List Char)
    (mgr : QNetworkAccessManager) (dictPtr : Class) (rs : List QNetworkReply)
    (h : (rs.foldl (WebSiteArticleRequest.requestFinished T)
      (WebSiteArticleRequest.new url mgr dictPtr)).isFinishedFlag = false) :
    (rs.foldl (WebSiteArticleRequest.requestFinished T)
        (WebSiteArticleRequest.new url mgr dictPtr)).data = []
      ∧ (rs.foldl (WebSiteArticleRequest.requestFinished T)
        (WebSiteArticleRequest.new url mgr dictPtr)).hasAnyData = false :=
  requestFinished_foldl_unfinished_empty T rs _ (fun _ => ⟨rfl, rfl⟩) h

theorem requestFinished_error (T : QCharTables) (req : WebSiteArticleRequest)
    (r : QNetworkReply) (hf : req.isFinishedFlag = false) (hh : r.handle = req.netReply)
    (he : r.noError = false) :
    req.requestFinished T r = { req with errorString := r.errorString, isFinishedFlag := true } := by
  unfold WebSiteArticleRequest.requestFinished
  simp [WebSiteArticleRequest.isFinished, hf, hh, he, WebSiteArticleRequest.finish,
    WebSiteArticleRequest.setErrorString]

/-- C11. For every request that, after any notifications, is not finished, and every
notification on the tracked exchange whose reply carries an error: the error string
of the request becomes the error description of the transport verbatim, the request
becomes finished, no redirect is followed (no GET is issued and the tracked reply
stays, whatever redirect target the reply carries), and the buffer is left empty
with `hasAnyData` false. -/
theorem requestFinished_transport_error (T : QCharTables) (url : List Char)
    (mgr : QNetworkAccessManager) (dictPtr : Class) (rs : List QNetworkReply)
    (r : QNetworkReply)
    (h : (rs.foldl (WebSiteArticleRequest.requestFinished T)
      (WebSiteArticleRequest.new url mgr dictPtr)).isFinished = false)
    (hh : r.handle = (rs.foldl (WebSiteArticleRequest.requestFinished T)
      (WebSiteArticleRequest.new url mgr dictPtr)).netReply)
    (he : r.noError = false) :
    ((rs.foldl (WebSiteArticleRequest.requestFinished T)
        (WebSiteArticleRequest.new url mgr dictPtr)).requestFinished T r).errorString
        = r.errorString
      ∧ ((rs.foldl (WebSiteArticleRequest.requestFinished T)
        (WebSiteArticleRequest.new url mgr dictPtr)).requestFinished T r).isFinished = true
      ∧ ((rs.foldl (WebSiteArticleRequest.requestFinished T)
        (WebSiteArticleRequest.new url mgr dictPtr)).requestFinished T r).mgr
        = (rs.foldl (WebSiteArticleRequest.requestFinished T)
            (WebSiteArticleRequest.new url mgr dictPtr)).mgr
      ∧ ((rs.foldl (WebSiteArticleRequest.requestFinished T)
        (WebSiteArticleRequest.new url mgr dictPtr)).requestFinished T r).netReply
        = (rs.foldl (WebSiteArticleRequest.requestFinished T)
            (WebSiteArticleRequest.new url mgr dictPtr)).netReply
      ∧ ((rs.foldl (WebSiteArticleRequest.requestFinished T)
        (WebSiteArticleRequest.new url mgr dictPtr)).requestFinished T r).data = []
      ∧ ((rs.foldl (WebSiteArticleRequest.requestFinished T)
        (WebSiteArticleRequest.new url mgr dictPtr)).requestFinished T r).hasAnyData
        = false := by
  have hf : (rs.foldl (WebSiteArticleRequest.requestFinished T)
      (WebSiteArticleRequest.new url mgr dictPtr)).isFinishedFlag = false := h
  have hempty := reachable_unfinished_empty T url mgr dictPtr rs hf
  rw [requestFinished_error T _ r hf hh he]
  exact ⟨rfl, rfl, rfl, rfl, hempty.1, hempty.2⟩

/-- C11, witness: the first reply of a new request fails with `Host h not found`. -/
theorem requestFinished_transport_error_witness :
    ((WebSiteArticleRequest.new "https://h/a/b".toList { requested := [] }
        exampleDict).requestFinished asciiTables exampleError).errorString
        = "Host h not found".toList
      ∧ ((WebSiteArticleRequest.new "https://h/a/b".toList { requested := [] }
        exampleDict).requestFinished asciiTables exampleError).mgr.requested
        = ["https://h/a/b".toList]
      ∧ ((WebSiteArticleRequest.new "https://h/a/b".toList { requested := [] }
        exampleDict).requestFinished asciiTables exampleError).data = [] := by
  have h := requestFinished_transport_error asciiTables "https://h/a/b".toList
    { requested := [] } exampleDict [] exampleError (by decide) (by decide) (by decide)
  exact ⟨h.1, by rw [List.foldl_nil] at h; rw [h.2.2.1]; rfl, h.2.2.2.2.1⟩

theorem requestFinished_other_reply (T : QCharTables) (req : WebSiteArticleRequest)
    (r : QNetworkReply) (h : r.handle ≠ req.netReply) : req.requestFinished T r = req := by
  unfold WebSiteArticleRequest.requestFinished
  simp [h]

theorem requestFinished_netReply_lt (T : QCharTables) (req : WebSiteArticleRequest)
    (r : QNetworkReply) (h : req.netReply < req.mgr.requested.length) :
    (req.requestFinished T r).netReply < (req.requestFinished T r).mgr.requested.length := by
  unfold WebSiteArticleRequest.requestFinished
  split
  · exact h
  · split
    · exact h
    · split
      · split
        · simp [QNetworkAccessManager.get]
        · exact h
      · exact h

theorem reachable_netReply_lt (T : QCharTables) (rs : List QNetworkReply) :
    ∀ req : WebSiteArticleRequest, req.netReply < req.mgr.requested.length →
      (rs.foldl (WebSiteArticleRequest.requestFinished T) req).netReply
        < (rs.foldl (WebSiteArticleRequest.requestFinished T) req).mgr.requested.length := by
  induction rs with
  | nil => exact fun _ h => h
  | cons r rs ih =>
    intro req h
    rw [List.foldl_cons]
    exact ih _ (requestFinished_netReply_lt T req r h)

/-- C18. For every request that, after any notifications, is not finished, and every
notification whose reply is not the tracked reply, the state of the request is the
same before and after: tracked reply, buffer, `hasAnyData`, error string, finished
flag and the GET requests issued. This holds in particular for the superseded reply
of a redirect hop: once a redirect has been followed, a notification for the reply
tracked before is ignored. -/
theorem requestFinished_stale_notification (T : QCharTables) (url : List Char)
    (mgr : QNetworkAccessManager) (dictPtr : Class) (rs : List QNetworkReply)
    (r : QNetworkReply)
    (h : (rs.foldl (WebSiteArticleRequest.requestFinished T)
      (WebSiteArticleRequest.new url mgr dictPtr)).isFinished = false)
    (hne : r.handle ≠ (rs.foldl (WebSiteArticleRequest.requestFinished T)
      (WebSiteArticleRequest.new url mgr dictPtr)).netReply) :
    (rs.foldl (WebSiteArticleRequest.requestFinished T)
        (WebSiteArticleRequest.new url mgr dictPtr)).requestFinished T r
        = rs.foldl (WebSiteArticleRequest.requestFinished T)
            (WebSiteArticleRequest.new url mgr dictPtr)
      ∧ ∀ redirect later : QNetworkReply,
          redirect.noError = true → redirect.redirectUrl ≠ [] →
          later.handle = (rs.foldl (WebSiteArticleRequest.requestFinished T)
            (WebSiteArticleRequest.new url mgr dictPtr)).netReply →
          (deliver T (rs.foldl (WebSiteArticleRequest.requestFinished T)
              (WebSiteArticleRequest.new url mgr dictPtr)) redirect).requestFinished T later
            = deliver T (rs.foldl (WebSiteArticleRequest.requestFinished T)
                (WebSiteArticleRequest.new url mgr dictPtr)) redirect := by
  refine ⟨requestFinished_other_reply T _ r hne, ?_⟩
  intro redirect later hok hred hlater
  have hlt := reachable_netReply_lt T rs (WebSiteArticleRequest.new url mgr dictPtr)
    (by simp [WebSiteArticleRequest.new, QNetworkAccessManager.get])
  apply requestFinished_other_reply
  rw [deliver_redirect T _ redirect h ⟨hok, hred⟩, hlater]
  simp only [QNetworkAccessManager.get]
  omega

/-- C18, witness: a new request tracks the reply 0; a notification for the reply 7
changes nothing, and after a redirect (the tracked reply is then 1) neither does a
second notification for the reply 0. -/
theorem requestFinished_stale_notification_witness :
    (WebSiteArticleRequest.new "https://h/a/b".toList { requested := [] }
        exampleDict).requestFinished asciiTables { exampleSuccess with handle := 7 }
        = WebSiteArticleRequest.new "https://h/a/b".toList { requested := [] } exampleDict
      ∧ (deliver asciiTables (WebSiteArticleRequest.new "https://h/a/b".toList
          { requested := [] } exampleDict) exampleRedirect).requestFinished asciiTables
            exampleSuccess
        = deliver asciiTables (WebSiteArticleRequest.new "https://h/a/b".toList
            { requested := [] } exampleDict) exampleRedirect
      ∧ (deliver asciiTables (WebSiteArticleRequest.new "https://h/a/b".toList
          { requested := [] } exampleDict) exampleRedirect).netReply = 1 := by
  have h := requestFinished_stale_notification asciiTables "https://h/a/b".toList
    { requested := [] } exampleDict [] { exampleSuccess with handle := 7 }
    (by decide) (by decide)
  exact ⟨h.1, h.2 exampleRedirect exampleSuccess (by decide) (by decide) (by decide),
    by decide⟩

/-- C19. In every state in which the request is finished (completed, failed or
cancelled), every further notification, on the tracked or on another reply, leaves
the request as it is, and so does every sequence of them. A notification that
changes the buffer finds the request unfinished and leaves it finished: the buffer
is written at most once, and a success notification that comes a second time does
not append the fragment again. -/
theorem requestFinished_terminal_absorbing (T : QCharTables) (req : WebSiteArticleRequest)
    (r : QNetworkReply) :
    (req.isFinished = true → req.requestFinished T r = req)
      ∧ (req.isFinished = true → ∀ rs : List QNetworkReply,
          rs.foldl (WebSiteArticleRequest.requestFinished T) req = req)
      ∧ ((req.requestFinished T r).data ≠ req.data →
          req.isFinished = false ∧ (req.requestFinished T r).isFinished = true
            ∧ ∀ rs : List QNetworkReply,
                (rs.foldl (WebSiteArticleRequest.requestFinished T)
                  (req.requestFinished T r)).data = (req.requestFinished T r).data)
      ∧ (r.noError = true → r.redirectUrl = [] →
          (deliver T req r).isFinished = true
            ∧ deliver T (deliver T req r) r = deliver T req r
            ∧ (deliver T req r).requestFinished T r = deliver T req r) := by
  have hwrite : (req.requestFinished T r).data ≠ req.data →
      req.isFinishedFlag = false ∧ (req.requestFinished T r).isFinishedFlag = true := by
    unfold WebSiteArticleRequest.requestFinished
    split
    · intro h
      exact absurd rfl h
    · rename_i hf
      have hf' : req.isFinishedFlag = false := by
        simpa [WebSiteArticleRequest.isFinished] using hf
      split
      · intro h
        exact absurd rfl h
      · split
        · split
          · intro h
            exact absurd rfl h
          · intro _
            exact ⟨hf', rfl⟩
        · intro _
          exact ⟨hf', rfl⟩
  have hfin : r.noError = true → r.redirectUrl = [] →
      (deliver T req r).isFinishedFlag = true := by
    intro h1 h2
    unfold deliver WebSiteArticleRequest.requestFinished onTracked
    by_cases hf : req.isFinishedFlag = true
    · simp [WebSiteArticleRequest.isFinished, hf]
    · simp [WebSiteArticleRequest.isFinished, hf, h1, h2, WebSiteArticleRequest.finish]
  refine ⟨fun h => requestFinished_of_finished T req r h,
    fun h rs => requestFinished_foldl_of_finished T rs req h, ?_, ?_⟩
  · intro h
    have hw := hwrite h
    refine ⟨hw.1, hw.2, fun rs => ?_⟩
    rw [requestFinished_foldl_of_finished T rs _ hw.2]
  · intro h1 h2
    have hf := hfin h1 h2
    exact ⟨hf, requestFinished_of_finished T _ _ hf, requestFinished_of_finished T _ _ hf⟩

/-- C19, examples: the success response delivered twice to a new request leaves the
buffer as the first delivery wrote it, and a cancelled request ignores it. -/
theorem requestFinished_terminal_absorbing_witness :
    deliver asciiTables (deliver asciiTables
        (WebSiteArticleRequest.new "https://h/a/b".toList { requested := [] } exampleDict)
        exampleSuccess) exampleSuccess
        = deliver asciiTables
            (WebSiteArticleRequest.new "https://h/a/b".toList { requested := [] } exampleDict)
            exampleSuccess
      ∧ (WebSiteArticleRequest.new "https://h/a/b".toList { requested := [] }
          exampleDict).cancel.requestFinished asciiTables exampleSuccess
        = (WebSiteArticleRequest.new "https://h/a/b".toList { requested := [] }
            exampleDict).cancel :=
  ⟨((requestFinished_terminal_absorbing asciiTables
      (WebSiteArticleRequest.new "https://h/a/b".toList { requested := [] } exampleDict)
      exampleSuccess).2.2.2 (by decide) (by decide)).2.1,
    (requestFinished_terminal_absorbing asciiTables
      (WebSiteArticleRequest.new "https://h/a/b".toList { requested := [] }
        exampleDict).cancel exampleSuccess).1 (by decide)⟩

/-! ## Further claims on the normalizer -/

theorem toUtf8_append (a b : List Char) : toUtf8 (a ++ b) = toUtf8 a ++ toUtf8 b := by
  simp [toUtf8, List.flatMap_append]

theorem utf8Char_ofNat (b : Nat) (h : b < 128) : utf8Char (Char.ofNat b) = [b] := by
  have hv : b.isValidChar := Or.inl (by omega)
  have hn : (Char.ofNat b).toNat = b := by
    simp [Char.ofNat, hv, Char.ofNatAux, Char.toNat, UInt32.toNat]
  unfold utf8Char
  simp [hn, h]

theorem toUtf8_fromAscii (id : Bytes) (h : ∀ b ∈ id, 0 < b ∧ b < 128) :
    toUtf8 (fromAscii id) = id := by
  have hc : c_str id = id := by
    unfold c_str
    apply List.takeWhile_eq_self_iff.mpr
    intro b hb
    have := (h b hb).1
    simp
    omega
  unfold fromAscii toUtf8
  rw [hc]
  induction id with
  | nil => rfl
  | cons b bs ih =>
    have hb := h b (by simp)
    simp only [List.map_cons, List.flatMap_cons, utf8Char_ofNat b hb.2]
    rw [ih (fun x hx => h x (by simp [hx]))
      (by
        unfold c_str
        apply List.takeWhile_eq_self_iff.mpr
        intro x hx
        have := (h x (by simp [hx])).1
        simp
        omega)]
    rfl

/-- C12. For every successful response body, source id and directionality flag, the
fragment is the UTF-8 of: `<div class="website_padding"></div>`, then
`<div class="website_` + id + `"`, then ` dir="rtl">` when the source is written right
to left and `>` otherwise, then the processed body, then `</div>`; these are the
bytes a new request stores for the response. The id enters as the text of its C
string, whose UTF-8 is the id itself for an id of ASCII characters. -/
theorem requestFinished_fragment_shape (T : QCharTables) (dictPtr : Class) (replyUrl : QUrl)
    (articleString : List Char) :
    articleBody T dictPtr replyUrl articleString
        = toUtf8 ("<div class=\"website_padding\"></div>".toList
            ++ ("<div class=\"website_".toList ++ fromAscii dictPtr.id ++ "\"".toList)
            ++ (if dictPtr.toLanguageRTL then " dir=\"rtl\">".toList else ">".toList)
            ++ processedBody T replyUrl articleString
            ++ "</div>".toList)
      ∧ (dictPtr.toLanguageRTL = true →
          articleBody T dictPtr replyUrl articleString
            = toUtf8 ("<div class=\"website_padding\"></div>".toList
                ++ ("<div class=\"website_".toList ++ fromAscii dictPtr.id ++ "\"".toList)
                ++ " dir=\"rtl\">".toList
                ++ processedBody T replyUrl articleString ++ "</div>".toList))
      ∧ (dictPtr.toLanguageRTL = false →
          articleBody T dictPtr replyUrl articleString
            = toUtf8 ("<div class=\"website_padding\"></div>".toList
                ++ ("<div class=\"website_".toList ++ fromAscii dictPtr.id ++ "\"".toList)
                ++ ">".toList
                ++ processedBody T replyUrl articleString ++ "</div>".toList))
      ∧ ((∀ b ∈ dictPtr.id, 0 < b ∧ b < 128) → toUtf8 (fromAscii dictPtr.id) = dictPtr.id)
      ∧ ∀ (url : List Char) (mgr : QNetworkAccessManager) (r : QNetworkReply),
          r.noError = true → r.redirectUrl = [] → r.url = replyUrl →
          r.articleString = articleString →
          (deliver T (WebSiteArticleRequest.new url mgr dictPtr) r).data
            = articleBody T dictPtr replyUrl articleString := by
  have e : articleBody T dictPtr replyUrl articleString
      = toUtf8 ("<div class=\"website_padding\"></div>".toList
          ++ ("<div class=\"website_".toList ++ fromAscii dictPtr.id ++ "\"".toList)
          ++ (if dictPtr.toLanguageRTL then " dir=\"rtl\">".toList else ">".toList)
          ++ processedBody T replyUrl articleString
          ++ "</div>".toList) := by
    have hl : ∀ X : List Char, "<div class=\"".toList ++ ("website_".toList ++ X)
        = "<div class=\"website_".toList ++ X := fun _ => rfl
    unfold articleBody lit
    simp only [List.append_assoc, hl, toUtf8_append]
  refine ⟨e, ?_, ?_, toUtf8_fromAscii dictPtr.id, ?_⟩
  · intro h
    rw [e, h]
    rfl
  · intro h
    rw [e, h]
    rfl
  · intro url mgr r h1 h2 h3 h4
    unfold deliver WebSiteArticleRequest.requestFinished onTracked
    simp [WebSiteArticleRequest.isFinished, WebSiteArticleRequest.new, h1, h2, h3, h4,
      WebSiteArticleRequest.finish]

/-- C13. For every body, the processed body is the text after the link pass and the
span and div closers, followed by a fixed block that is appended unconditionally:
exactly 12 `</font>`, then 8 `</b>`, then 8 `</i>`, then 8 `</a>`; in the fragment
this block stands immediately before the closing `</div>` of the wrapper. -/
theorem requestFinished_closer_padding (T : QCharTables) (dictPtr : Class) (replyUrl : QUrl)
    (articleString : List Char) :
    closerPadding = closers 12 "</font>".toList ++ closers 8 "</b>".toList
        ++ closers 8 "</i>".toList ++ closers 8 "</a>".toList
      ∧ processedBody T replyUrl articleString
        = closeDivs T (closeSpans T (linkLoop T replyUrl articleString 0)) ++ closerPadding
      ∧ processedBody T replyUrl articleString
        = linkLoop T replyUrl articleString 0
          ++ closers
              (countMatches (matchesOpen T "span".toList) (linkLoop T replyUrl articleString 0)
                - countMatches (matchesClose T "span".toList)
                    (linkLoop T replyUrl articleString 0)) "</span>".toList
          ++ closers
              (countMatches (matchesOpen T "div".toList) (linkLoop T replyUrl articleString 0)
                - countMatches (matchesClose T "div".toList)
                    (linkLoop T replyUrl articleString 0)) "</div>".toList
          ++ closerPadding
      ∧ articleBody T dictPtr replyUrl articleString
        = toUtf8 ("<div class=\"website_padding\"></div>".toList
            ++ ("<div class=\"website_".toList ++ fromAscii dictPtr.id ++ "\"".toList)
            ++ (if dictPtr.toLanguageRTL then " dir=\"rtl\">".toList else ">".toList)
            ++ closeDivs T (closeSpans T (linkLoop T replyUrl articleString 0)))
          ++ toUtf8 closerPadding ++ lit "</div>" := by
  refine ⟨by decide, rfl, ?_, ?_⟩
  · unfold processedBody
    simp only
    rw [closeDivs_closeSpans_eq, closeSpans_eq]
  · have hl : ∀ X : List Char, "<div class=\"".toList ++ ("website_".toList ++ X)
        = "<div class=\"website_".toList ++ X := fun _ => rfl
    unfold articleBody lit processedBody
    simp only [List.append_assoc, hl, toUtf8_append]

/-! ## Further claims on `getArticle` and `makeDictionaries` -/

theorem mem_replaceFrom (before after : Bytes) (x : Nat) :
    ∀ (k : Nat) (s : Bytes), x ∈ replaceFrom before after k s → x ∈ s ∨ x ∈ after := by
  intro k s
  induction s generalizing k with
  | nil =>
    intro h
    cases k <;> simp [replaceFrom] at h
  | cons c cs ih =>
    intro h
    cases k with
    | succ k =>
      simp only [replaceFrom] at h
      rcases ih k h with h1 | h1
      · exact Or.inl (List.mem_cons_of_mem _ h1)
      · exact Or.inr h1
    | zero =>
      simp only [replaceFrom] at h
      split at h
      · rcases List.mem_append.mp h with h1 | h1
        · exact Or.inr h1
        · rcases ih _ h1 with h2 | h2
          · exact Or.inl (List.mem_cons_of_mem _ h2)
          · exact Or.inr h2
      · rcases List.mem_cons.mp h with h1 | h1
        · exact Or.inl (h1 ▸ List.mem_cons_self _ _)
        · rcases ih _ h1 with h2 | h2
          · exact Or.inl (List.mem_cons_of_mem _ h2)
          · exact Or.inr h2

theorem mem_replace (s before after : Bytes) (x : Nat) (h : x ∈ replace s before after) :
    x ∈ s ∨ x ∈ after := by
  unfold replace at h
  split at h
  · exact Or.inl h
  · exact mem_replaceFrom before after x 0 s h

theorem toPercentEncoding_no_zero (b : Bytes) : 0 ∉ toPercentEncoding b := by
  unfold toPercentEncoding
  intro h
  rw [List.mem_flatMap] at h
  obtain ⟨c, _, hc⟩ := h
  unfold percentByte at hc
  split at hc
  · rename_i hu
    simp only [List.mem_singleton] at hc
    subst hc
    simp [isUnreserved] at hu
  · simp only [List.mem_cons, List.mem_singleton, List.not_mem_nil, or_false] at hc
    unfold toHexHelper at hc
    rcases hc with h | h | h
    · omega
    · split at h <;> omega
    · split at h <;> omega

theorem substitute_no_zero (cs : Codecs) (w : List Char) (name : String) (token u : Bytes)
    (h : 0 ∉ u) : 0 ∉ substitute cs w name token u := by
  unfold substitute
  split
  · intro hm
    rcases mem_replace _ _ _ _ hm with h1 | h1
    · exact h h1
    · exact toPercentEncoding_no_zero _ h1
  · exact h

theorem substitute_foldl_no_zero (cs : Codecs) (w : List Char) (ps : List (String × Bytes)) :
    ∀ u : Bytes, 0 ∉ u → 0 ∉ ps.foldl (fun u p => substitute cs w p.1 p.2 u) u := by
  induction ps with
  | nil => exact fun _ h => h
  | cons p ps ih =>
    intro u h
    rw [List.foldl_cons]
    exact ih _ (substitute_no_zero cs w p.1 p.2 u h)

theorem urlString_no_zero (cs : Codecs) (urlTemplate : Bytes) (str context : List Char)
    (h : 0 ∉ urlTemplate) : 0 ∉ WebSiteDictionary.urlString cs urlTemplate str context := by
  by_cases hc : context = []
  · subst hc
    rw [urlString_eq_foldl]
    apply substitute_foldl_no_zero
    intro hm
    rcases mem_replace _ _ _ _ hm with h1 | h1
    · exact h h1
    · exact toPercentEncoding_no_zero _ h1
  · have hlen : context.length ≠ 0 := fun e => hc (List.length_eq_zero.mp e)
    unfold WebSiteDictionary.urlString
    rw [if_pos hlen]
    unfold c_str
    intro hm
    have := List.mem_takeWhile_imp hm
    simp at this

theorem c_str_of_no_zero (b : Bytes) (h : 0 ∉ b) : c_str b = b := by
  unfold c_str
  apply List.takeWhile_eq_self_iff.mpr
  intro x hx
  have : x ≠ 0 := fun e => h (e ▸ hx)
  simpa using this

/-- C14. For every dictionary with `inside_iframe` set (its encoded template, as every
output of `QUrl::toEncoded`, has no NUL byte) and every word and context: `getArticle`
returns an instant request that is already finished, no GET is issued, and the bytes
are exactly the padding div followed by one `<iframe>` element whose id is
`gdexpandframe-` + the id of the dictionary and whose `src` is the resolved URL; the
same dictionary without `inside_iframe` issues exactly one GET, for that URL. -/
theorem getArticle_iframe (cs : Codecs) (dict : WebSiteDictionary) (toLanguageRTL : Bool)
    (netMgr : QNetworkAccessManager) (str context : List Char)
    (hif : dict.inside_iframe = true) (h0 : 0 ∉ dict.urlTemplate) :
    dict.getArticle cs toLanguageRTL netMgr str context
        = DataRequest.instant
            { isFinishedFlag := true
              hasAnyData := true
              data := lit "<div class=\"website_padding\"></div>"
                ++ (lit "<iframe id=\"gdexpandframe-" ++ dict.id
                  ++ lit "\" src=\""
                  ++ WebSiteDictionary.urlString cs dict.urlTemplate str context
                  ++ lit "\" onmouseover=\"processIframeMouseOver('gdexpandframe-"
                  ++ dict.id ++ lit "');\" "
                  ++ lit "onmouseout=\"processIframeMouseOut();\" "
                  ++ lit "scrolling=\"no\" marginwidth=\"0\" marginheight=\"0\" "
                  ++ lit "frameborder=\"0\" vspace=\"0\" hspace=\"0\" "
                  ++ lit "style=\"overflow:visible; width:100%; display:none;\">"
                  ++ lit "</iframe>") }
      ∧ (dict.getArticle cs toLanguageRTL netMgr str context).requested netMgr
        = netMgr.requested
      ∧ ({ dict with inside_iframe := false }.getArticle cs toLanguageRTL netMgr str
            context).requested netMgr
        = netMgr.requested
          ++ [(WebSiteDictionary.urlString cs dict.urlTemplate str context).map Char.ofNat] := by
  have hz := urlString_no_zero cs dict.urlTemplate str context h0
  have hc := c_str_of_no_zero _ hz
  refine ⟨?_, ?_, ?_⟩
  · unfold WebSiteDictionary.getArticle iframeResult
    simp only [hif, if_true, hc]
  · unfold WebSiteDictionary.getArticle
    simp only [hif, if_true, DataRequest.requested]
  · unfold WebSiteDictionary.getArticle
    simp [DataRequest.requested, WebSiteArticleRequest.new, QNetworkAccessManager.get,
      fromAscii, hc]

/-- C14, witness: the dictionary `ab` with the template `http://h/?q=%25GDWORD%25`
and the word `héllo`. -/
theorem getArticle_iframe_witness :
    exampleIframeDictionary.getArticle latin1Only false { requested := [] }
        "héllo".toList []
      = DataRequest.instant
          { isFinishedFlag := true
            hasAnyData := true
            data := lit ("<div class=\"website_padding\"></div>"
              ++ "<iframe id=\"gdexpandframe-ab\" src=\"http://h/?q=h%C3%A9llo\" "
              ++ "onmouseover=\"processIframeMouseOver('gdexpandframe-ab');\" "
              ++ "onmouseout=\"processIframeMouseOut();\" "
              ++ "scrolling=\"no\" marginwidth=\"0\" marginheight=\"0\" "
              ++ "frameborder=\"0\" vspace=\"0\" hspace=\"0\" "
              ++ "style=\"overflow:visible; width:100%; display:none;\">"
              ++ "</iframe>") } := by
  have h := getArticle_iframe latin1Only exampleIframeDictionary false { requested := [] }
    "héllo".toList [] (by decide) (by decide)
  rw [h.1]
  have e : WebSiteDictionary.urlString latin1Only exampleIframeDictionary.urlTemplate
      "héllo".toList [] = lit "http://h/?q=h%C3%A9llo" := by
    rw [urlString_eq_foldl]
    decide
  rw [e]
  decide

theorem rewriteTag_length_pos (T : QCharTables) (u : QUrl) (tag t : List Char)
    (h : rewriteTag T u tag = some t) : 0 < t.length := by
  unfold rewriteTag at h
  split at h
  · cases h
  · simp only at h
    split at h
    · cases h
    · simp only [Option.some.injEq] at h
      subst h
      have he : 0 < "=".toList.length := by decide
      simp only [replaceAt, List.length_append]
      split
      · simp only [List.length_append]
        omega
      · split
        · simp only [List.length_append]
          omega
        · simp only [List.length_append]
          omega

theorem linkLoop_eq_linkStep (T : QCharTables) (u : QUrl) (s : List Char) (pos : Nat) :
    linkLoop T u s pos
      = match linkStep T u (s, pos) with
        | none => s
        | some st => linkLoop T u st.1 st.2 := by
  unfold linkStep
  cases hidx : indexOfTags T s pos with
  | none => simp only [linkLoop_no_match T u s pos hidx]
  | some pn =>
    obtain ⟨p, n⟩ := pn
    have hb := indexOfTags_bounds T s pos p n hidx
    have hlen : ((s.drop p).take n).length = n := by
      simp only [List.length_take, List.length_drop]
      omega
    cases hrw : rewriteTag T u ((s.drop p).take n) with
    | none =>
      simp only [hrw, hlen]
      exact linkLoop_passed_over T u s pos p n hidx hrw
    | some tag =>
      simp only [hrw]
      exact linkLoop_rewritten T u s pos p n tag hidx hrw

theorem linkStep_progress (T : QCharTables) (u : QUrl) (s : List Char) (pos : Nat)
    (s' : List Char) (pos' : Nat) (h : linkStep T u (s, pos) = some (s', pos')) :
    ∃ p n tag, indexOfTags T s pos = some (p, n) ∧ pos ≤ p ∧ 0 < n ∧ 0 < tag.length
      ∧ p + n ≤ s.length
      ∧ tag = (rewriteTag T u ((s.drop p).take n)).getD ((s.drop p).take n)
      ∧ s' = s.take p ++ tag ++ s.drop (p + n) ∧ pos' = p + tag.length := by
  unfold linkStep at h
  cases hidx : indexOfTags T s pos with
  | none => simp [hidx] at h
  | some pn =>
    obtain ⟨p, n⟩ := pn
    have hb := indexOfTags_bounds T s pos p n hidx
    have hlen : ((s.drop p).take n).length = n := by
      simp only [List.length_take, List.length_drop]
      omega
    simp only [hidx] at h
    cases hrw : rewriteTag T u ((s.drop p).take n) with
    | none =>
      simp only [hrw, Option.some.injEq, Prod.mk.injEq] at h
      refine ⟨p, n, (s.drop p).take n, rfl, hb.1, hb.2.1, by omega, hb.2.2,
        by rw [hrw]; rfl, ?_, ?_⟩
      · rw [← h.1, List.append_assoc]
        have : s.drop p = (s.drop p).take n ++ s.drop (p + n) := by
          rw [← List.drop_drop, List.take_append_drop]
        rw [← this, List.take_append_drop]
      · exact h.2.symm
    | some tag =>
      simp only [hrw, Option.some.injEq, Prod.mk.injEq] at h
      exact ⟨p, n, tag, rfl, hb.1, hb.2.1, rewriteTag_length_pos T u _ tag hrw, hb.2.2,
        by rw [hrw]; rfl, h.1.symm, h.2.symm⟩

theorem linkIter_enough (T : QCharTables) (u : QUrl) :
    ∀ (k : Nat) (s : List Char) (pos : Nat), s.length - pos < k →
      linkIter T u k (s, pos) = some (linkLoop T u s pos) := by
  intro k
  induction k with
  | zero =>
    intro s pos h
    omega
  | succ k ih =>
    intro s pos h
    rw [linkLoop_eq_linkStep]
    unfold linkIter
    cases hs : linkStep T u (s, pos) with
    | none => rfl
    | some st =>
      obtain ⟨s', pos'⟩ := st
      obtain ⟨p, n, tag, _, h1, h2, h3, h4, _, h5, h6⟩ := linkStep_progress T u s pos s' pos' hs
      simp only
      apply ih
      rw [h5, h6]
      simp only [List.length_append, List.length_take, List.length_drop]
      omega

/-- C15. For every text (markup or not) and fetched URL, an iteration of the link
pass that does not leave the loop handles a tag that is not empty and starts at or
behind the scan position, and resumes right behind the handled (possibly rewritten
and lengthened) tag: the position strictly increases, the text before it is final and
the text behind it is the untouched rest of the input, which gets shorter. So the
loop is left after at most as many iterations as there are characters behind the
position, with the result of the pass; and the fragment is a total function of
body, dictionary and URL. -/
theorem requestFinished_link_pass_terminates (T : QCharTables) (replyUrl : QUrl)
    (articleString : List Char) (pos : Nat) :
    (∀ (s' : List Char) (pos' : Nat),
        linkStep T replyUrl (articleString, pos) = some (s', pos') →
        pos < pos' ∧ pos' ≤ s'.length
          ∧ s'.length - pos' < articleString.length - pos
          ∧ ∃ p n tag, pos ≤ p ∧ 0 < n ∧ 0 < tag.length
              ∧ indexOfTags T articleString pos = some (p, n)
              ∧ s'.take pos' = articleString.take p ++ tag
              ∧ s'.drop pos' = articleString.drop (p + n))
      ∧ (linkStep T replyUrl (articleString, pos) = none →
          linkLoop T replyUrl articleString pos = articleString)
      ∧ linkIter T replyUrl (articleString.length - pos + 1) (articleString, pos)
          = some (linkLoop T replyUrl articleString pos)
      ∧ ∀ dictPtr : Class, ∃ fragment : Bytes,
          articleBody T dictPtr replyUrl articleString = fragment
            ∧ lit "<div class=\"website_padding\"></div>" <+: fragment := by
  refine ⟨?_, ?_, linkIter_enough T replyUrl _ _ _ (by omega), ?_⟩
  · intro s' pos' h
    obtain ⟨p, n, tag, hidx, h1, h2, h3, h4, _, h5, h6⟩ :=
      linkStep_progress T replyUrl articleString pos s' pos' h
    have hl : (articleString.take p ++ tag).length = pos' := by
      rw [h6]
      simp only [List.length_append, List.length_take]
      omega
    refine ⟨by omega, ?_, ?_, p, n, tag, h1, h2, h3, hidx, ?_, ?_⟩
    · rw [h5, h6]
      simp only [List.length_append, List.length_take, List.length_drop]
      omega
    · rw [h5, h6]
      simp only [List.length_append, List.length_take, List.length_drop]
      omega
    · rw [h5, ← hl, List.take_left']
      rfl
    · rw [h5, ← hl, List.drop_left']
      rfl
  · intro h
    rw [linkLoop_eq_linkStep, h]
  · intro dictPtr
    exact ⟨_, rfl, by unfold articleBody; exact List.prefix_append _ _⟩

/-! ## Further claims on the link pass -/

theorem rewriteTag_eq (T : QCharTables) (u : QUrl) (tag : List Char) (m : LinkMatch)
    (hm : indexOfLinks T tag = some m)
    (h1 : contains m.cap3 ":/".toList = false)
    (h2 : contains m.cap3 "data:".toList = false)
    (h3 : contains m.cap3 "mailto:".toList = false)
    (h4 : "#".toList.isPrefixOf m.cap3 = false) :
    rewriteTag T u tag
      = some (tag.take m.linkPos
          ++ (m.cap1 ++ ['='] ++ m.cap2 ++ linkPrefix u m.cap3 ++ m.cap3)
          ++ tag.drop (m.linkPos + m.size)) := by
  unfold rewriteTag linkPrefix
  simp only [hm, h1, h2, h3, h4, Bool.or_self, Bool.false_eq_true, if_false, replaceAt]
  split
  · simp [List.append_assoc]
  · split <;> simp [List.append_assoc]

theorem base_eq (u : QUrl) (h : '/' ∈ u.path) : base u = root u ++ directoryOf u.path := by
  unfold base directoryOf
  generalize root u = r
  generalize u.path = path at h
  induction path using List.reverseRecOn with
  | nil => simp at h
  | append_singleton init c ih =>
    by_cases hc : c = '/'
    · subst hc
      rw [← List.append_assoc, List.rdropWhile_concat_neg _ _ _ (by simp),
        List.rdropWhile_concat_neg _ _ _ (by simp), List.append_assoc]
    · have hin : '/' ∈ init := by
        rcases List.mem_append.mp h with h1 | h1
        · exact h1
        · simp only [List.mem_singleton] at h1
          exact absurd h1.symm hc
      rw [← List.append_assoc, List.rdropWhile_concat_pos _ _ _ (by simpa using hc),
        List.rdropWhile_concat_pos _ _ _ (by simpa using hc)]
      exact ih hin

/-- C16 (code bug). When the path of the fetched URL contains a `/`, a tag whose first
`src`/`href` value has none of the markers `:/`, `data:`, `mailto:` and starts neither
with `/` nor with `#` is rewritten by prefixing the value with scheme, `://`, host
and the path truncated after its last `/`: `src="rel.png"` fetched from
`https://h/a/b` yields `src="https://h/a/rel.png"`. With an empty path the chopping
of `base` eats the host: fetched from `https://h`, `base` is `https://` and
`src="rel.png"` becomes `src="https://rel.png"`, which does not begin with
`https://h`. -/
theorem requestFinished_path_relative_links :
    (∀ (T : QCharTables) (replyUrl : QUrl) (tag : List Char) (m : LinkMatch),
        indexOfLinks T tag = some m →
        contains m.cap3 ":/".toList = false →
        contains m.cap3 "data:".toList = false →
        contains m.cap3 "mailto:".toList = false →
        "#".toList.isPrefixOf m.cap3 = false →
        "/".toList.isPrefixOf m.cap3 = false →
        '/' ∈ replyUrl.path →
        rewriteTag T replyUrl tag
          = some (tag.take m.linkPos
              ++ (m.cap1 ++ ['='] ++ m.cap2
                ++ (replyUrl.scheme ++ "://".toList ++ replyUrl.host
                  ++ directoryOf replyUrl.path)
                ++ m.cap3)
              ++ tag.drop (m.linkPos + m.size)))
      ∧ linkLoop asciiTables exampleUrl "<img src=\"rel.png\">".toList 0
        = "<img src=\"https://h/a/rel.png\">".toList
      ∧ base exampleUrlNoPath = "https://".toList
      ∧ linkLoop asciiTables exampleUrlNoPath "<img src=\"rel.png\">".toList 0
        = "<img src=\"https://rel.png\">".toList
      ∧ linkLoop asciiTables exampleUrlNoPath "<img src=\"rel.png\">".toList 0
        ≠ "<img src=\"https://hrel.png\">".toList
      ∧ ¬ "https://h".toList <+: "https://rel.png".toList := by
  refine ⟨?_, ?_, by decide, ?_, ?_, by decide⟩
  · intro T replyUrl tag m hm h1 h2 h3 h4 h5 hp
    have h6 : "//".toList.isPrefixOf m.cap3 = false := by
      cases hc : m.cap3 with
      | nil => rfl
      | cons c cs =>
        rw [hc] at h5
        have hne : ¬ ('/' = c) := by simpa [List.isPrefixOf] using h5
        simp [List.isPrefixOf, hne]
    rw [rewriteTag_eq T replyUrl tag m hm h1 h2 h3 h4]
    unfold linkPrefix
    rw [h6, h5, base_eq replyUrl hp]
    rfl
  · rw [linkLoop_zero]
    decide
  · rw [linkLoop_zero]
    decide
  · rw [linkLoop_zero]
    decide

/-- C17 (code bug). A tag whose first `src`/`href` value contains none of `:/`,
`data:`, `mailto:` and does not start with `#` is rewritten: the value gets a prefix.
But a relative value that merely contains the text `data:` or `mailto:` behind its
start is passed over like inline data or a mail link: fetched from `https://h/a/b`,
`<a href="list?sort=data:asc">` and `<a href="share?via=mailto:x">` are left as they
are, not rewritten to `https://h/a/list?sort=data:asc` and
`https://h/a/share?via=mailto:x`. -/
theorem requestFinished_rewritten_links :
    (∀ (T : QCharTables) (replyUrl : QUrl) (tag : List Char) (m : LinkMatch),
        indexOfLinks T tag = some m →
        contains m.cap3 ":/".toList = false →
        contains m.cap3 "data:".toList = false →
        contains m.cap3 "mailto:".toList = false →
        "#".toList.isPrefixOf m.cap3 = false →
        rewriteTag T replyUrl tag
          = some (tag.take m.linkPos
              ++ (m.cap1 ++ ['='] ++ m.cap2 ++ linkPrefix replyUrl m.cap3 ++ m.cap3)
              ++ tag.drop (m.linkPos + m.size)))
      ∧ matchedTags asciiTables "<a href=\"list?sort=data:asc\">".toList
        = ["<a href=\"list?sort=data:asc\">".toList]
      ∧ "data:".toList.isPrefixOf "list?sort=data:asc".toList = false
      ∧ linkLoop asciiTables exampleUrl "<a href=\"list?sort=data:asc\">".toList 0
        = "<a href=\"list?sort=data:asc\">".toList
      ∧ linkLoop asciiTables exampleUrl "<a href=\"list?sort=data:asc\">".toList 0
        ≠ "<a href=\"https://h/a/list?sort=data:asc\">".toList
      ∧ "mailto:".toList.isPrefixOf "share?via=mailto:x".toList = false
      ∧ linkLoop asciiTables exampleUrl "<a href=\"share?via=mailto:x\">".toList 0
        = "<a href=\"share?via=mailto:x\">".toList
      ∧ linkLoop asciiTables exampleUrl "<a href=\"share?via=mailto:x\">".toList 0
        ≠ "<a href=\"https://h/a/share?via=mailto:x\">".toList := by
  refine ⟨fun T replyUrl tag m hm h1 h2 h3 h4 => rewriteTag_eq T replyUrl tag m hm h1 h2 h3 h4,
    by decide, by decide, ?_, ?_, by decide, ?_, ?_⟩ <;> rw [linkLoop_zero] <;> decide

theorem makeDictionariesLoop_eq (toEncoded : List Char → Bytes) (ws : List Config.WebSite) :
    ∀ (k x : Nat) (result : List WebSiteDictionary), ws.length - x ≤ k →
      makeDictionariesLoop toEncoded ws x result
        = result ++ ((ws.drop x).filter (fun w => w.enabled)).map
            (WebSiteDictionary.new toEncoded) := by
  intro k
  induction k with
  | zero =>
    intro x result h
    rw [makeDictionariesLoop, dif_neg (by omega), List.drop_eq_nil_iff.mpr (by omega)]
    simp
  | succ k ih =>
    intro x result h
    rw [makeDictionariesLoop]
    by_cases hx : x < ws.length
    · rw [dif_pos hx]
      have hd : ws.drop x = ws[x] :: ws.drop (x + 1) := List.drop_eq_getElem_cons hx
      by_cases he : ws[x].enabled = true
      · rw [if_pos he, ih (x + 1) _ (by omega), hd, List.filter_cons, if_pos he]
        simp
      · rw [if_neg he, ih (x + 1) _ (by omega), hd, List.filter_cons, if_neg he]
    · rw [dif_neg hx, List.drop_eq_nil_iff.mpr (by omega)]
      simp

/-- C20. For every list of configured web sites, `makeDictionaries` returns, in the
order of the configuration, exactly one dictionary for each entry whose enabled flag
is set and none for a disabled entry; each dictionary carries the id and the name of
its entry (as the C string of their UTF-8, which is the whole UTF-8 when they have
no NUL character), its URL template in the encoded form, its URL as description and
its `inside_iframe` flag. The length of the result is the number of enabled
entries. -/
theorem makeDictionaries_enabled (toEncoded : List Char → Bytes)
    (ws : List Config.WebSite) :
    makeDictionaries toEncoded ws
        = (ws.filter (fun w => w.enabled)).map (WebSiteDictionary.new toEncoded)
      ∧ (makeDictionaries toEncoded ws).length = ws.countP (fun w => w.enabled)
      ∧ (∀ d ∈ makeDictionaries toEncoded ws, ∃ w ∈ ws, w.enabled = true
          ∧ d.id = (toUtf8 w.id).takeWhile (fun b => b != 0)
          ∧ d.name = (toUtf8 w.name).takeWhile (fun b => b != 0)
          ∧ d.urlTemplate = toEncoded w.url
          ∧ d.dictionaryDescription = w.url
          ∧ d.iconFilename = w.iconFilename
          ∧ d.inside_iframe = w.inside_iframe)
      ∧ (∀ w ∈ ws, w.enabled = true →
          WebSiteDictionary.new toEncoded w ∈ makeDictionaries toEncoded ws)
      ∧ (∀ w : Config.WebSite, (∀ c ∈ w.id, c ≠ Char.ofNat 0) →
          (WebSiteDictionary.new toEncoded w).id = toUtf8 w.id)
      ∧ (∀ w : Config.WebSite, (∀ c ∈ w.name, c ≠ Char.ofNat 0) →
          (WebSiteDictionary.new toEncoded w).name = toUtf8 w.name) := by
  have e : makeDictionaries toEncoded ws
      = (ws.filter (fun w => w.enabled)).map (WebSiteDictionary.new toEncoded) := by
    unfold makeDictionaries
    rw [makeDictionariesLoop_eq toEncoded ws ws.length 0 [] (by omega)]
    simp
  have hz : ∀ s : List Char, (∀ c ∈ s, c ≠ Char.ofNat 0) → c_str (toUtf8 s) = toUtf8 s := by
    intro s hs
    apply c_str_of_no_zero
    intro h0
    exact encode_no_zero s hs 0 h0 rfl
  refine ⟨e, ?_, ?_, ?_, fun w hw => hz w.id hw, fun w hw => hz w.name hw⟩
  · rw [e, List.length_map, List.countP_eq_length_filter]
  · intro d hd
    rw [e, List.mem_map] at hd
    obtain ⟨w, hw, rfl⟩ := hd
    rw [List.mem_filter] at hw
    exact ⟨w, hw.1, hw.2, rfl, rfl, rfl, rfl, rfl, rfl⟩
  · intro w hw he
    rw [e, List.mem_map]
    exact ⟨w, List.mem_filter.mpr ⟨hw, he⟩, rfl⟩

end WebSite
